import Mathlib

/-!
Verification of the NSX-to-FortiOS firewall SSI reconciler
(`ssi.utils.ts`, `services/nsx.service.ts`, `services/fortios.service.ts`,
and the `SSIWorker` orchestration class).

The TypeScript sources are shallowly embedded: JS `Record<string, T>`
objects become insertion-ordered association lists, external HTTP calls
become explicit input data (with `Option` marking a transport failure that
the source `catch`-handler downgrades to `undefined`), and code paths that
dereference `undefined` are modelled as `Except.error` (a thrown
`TypeError`).  The helpers `addressInUse` / `address6InUse` are imported by
`fortios.service.ts` but their defining file is not part of the provided
sources; they are modelled from the spec (see their doc comments).
-/

namespace SSI

/-! ## JS object (string-keyed record) primitives -/

/-- A JS `Record<string, T>`: insertion-ordered association list with
unique keys (uniqueness is maintained by the operations below). -/
abbrev JsRecord (α : Type) := List (String × α)

/-- `Object.values(m)` in insertion order. -/
def jsValues {α : Type} (m : JsRecord α) : List α := m.map (fun p => p.2)

/-- JS property assignment `m[k] = v`: replaces the value in place if the
key exists (keeping its position), otherwise appends. -/
def jsSet {α : Type} : JsRecord α → String → α → JsRecord α
  | [], k, v => [(k, v)]
  | (k1, v1) :: rest, k, v =>
    if k1 = k then (k1, v) :: rest else (k1, v1) :: jsSet rest k v

/-- `Object.assign(target, source)`: every source entry overwrites. -/
def objectAssign {α : Type} (target source : JsRecord α) : JsRecord α :=
  source.foldl (fun acc p => jsSet acc p.1 p.2) target

def dedupFirstAux (seen : List String) : List String → List String
  | [] => []
  | x :: xs =>
    if seen.contains x then dedupFirstAux seen xs
    else x :: dedupFirstAux (seen ++ [x]) xs

/-- First-occurrence deduplication, the semantics of JS
`[...new Set(xs)]` and of insertion into a JS `Map` keyed by the element. -/
def dedupFirst (l : List String) : List String := dedupFirstAux [] l

/-- Code-unit lexicographic comparison of character lists, the string
ordering JS `Array.prototype.sort()` uses by default. -/
def charListLe : List Char → List Char → Bool
  | [], _ => true
  | _ :: _, [] => false
  | a :: as, b :: bs =>
    if a.toNat < b.toNat then true
    else if b.toNat < a.toNat then false
    else charListLe as bs

def jsStringLe (a b : String) : Bool := charListLe a.data b.data

/-- JS `Array.prototype.sort()` on strings (lexicographic). -/
def jsSortStrings (l : List String) : List String :=
  List.insertionSort (fun a b : String => jsStringLe a b = true) l

/-- Splits a character list on a separator character; JS
`String.prototype.split` with a one-character separator. -/
def splitOnChar (sep : Char) : List Char → List (List Char)
  | [] => [[]]
  | c :: rest =>
    let r := splitOnChar sep rest
    if c = sep then [] :: r
    else
      match r with
      | [] => [[c]]
      | h :: t => (c :: h) :: t

/-- Splits at the first occurrence of a double colon, for IPv6 parsing. -/
def splitOnDoubleColon : List Char → Option (List Char × List Char)
  | [] => none
  | [_] => none
  | ':' :: ':' :: rest => some ([], rest)
  | c :: rest =>
    (splitOnDoubleColon rest).map (fun p => (c :: p.1, p.2))

/-! ## Data model (FortiOS record shapes from `@norskhelsenett/zeniki`) -/

inductive FortiOSFirewallAddressType
  | IP_Mask
  | IP_Range
deriving DecidableEq

/-- Source constructors are `ipprefix` / `iprange`; suffixed here to keep
the two namespaces' enums distinct Lean names. -/
inductive FortiOSFirewallAddress6Type
  | IP_Prefix6
  | IP_Range6
deriving DecidableEq

structure FortiOSFirewallAddress where
  name : String
  type : FortiOSFirewallAddressType
  subnet : String := ""
  startIp : String := ""
  endIp : String := ""
  color : Nat := 0
  comment : String := ""
deriving DecidableEq

structure FortiOSFirewallAddress6 where
  name : String
  type : FortiOSFirewallAddress6Type
  ip6 : String := ""
  startIp : String := ""
  endIp : String := ""
  color : Nat := 0
  comment : String := ""
deriving DecidableEq

/-- Address-group record; `FortiOSFirewallAddrGrp` and
`FortiOSFirewallAddrGrp6` have the same shape in the source, and only the
member names are ever read, so members are the list of member names
(source: a list of objects carrying exactly a `name` field). -/
structure FortiOSFirewallAddrGrp where
  name : String
  comment : String := ""
  color : Nat := 0
  member : List String := []
deriving DecidableEq

/-! ## Models of the external IP-validation libraries (`ip-num`,
`ipaddr.js`).  These are collaborators outside the repository; they are
modelled as total syntactic checks on the literal.  Simplifications
(documented): IPv6 groups are plain hex (no embedded IPv4 notation, no
zone index), and octets may not carry leading zeros. -/

def isDigitChar (c : Char) : Bool :=
  decide (48 ≤ c.toNat) && decide (c.toNat ≤ 57)

def digitsToNat (l : List Char) : Nat :=
  l.foldl (fun n c => n * 10 + (c.toNat - 48)) 0

def isValidIPv4Octet (s : List Char) : Bool :=
  match s with
  | [] => false
  | c :: rest =>
    (c :: rest).all isDigitChar &&
      decide (digitsToNat (c :: rest) ≤ 255) &&
      (rest.isEmpty || c != '0')

/-- Model of `Validator.isValidIPv4String` (ip-num). -/
def isValidIPv4String (s : String) : Bool :=
  match splitOnChar '.' s.data with
  | [a, b, c, d] =>
    isValidIPv4Octet a && isValidIPv4Octet b &&
      isValidIPv4Octet c && isValidIPv4Octet d
  | _ => false

def isValidPrefixLen (bound : Nat) (s : List Char) : Bool :=
  match s with
  | [] => false
  | c :: rest =>
    (c :: rest).all isDigitChar &&
      decide (digitsToNat (c :: rest) ≤ bound) &&
      (rest.isEmpty || c != '0')

/-- Model of `Validator.isValidIPv4CidrNotation` (ip-num). -/
def isValidIPv4Cidr (s : String) : Bool :=
  match splitOnChar '/' s.data with
  | [ip, p] => isValidIPv4String (String.mk ip) && isValidPrefixLen 32 p
  | _ => false

/-- Model of `Validator.isValidIPv4RangeString` (ip-num). -/
def isValidIPv4Range (s : String) : Bool :=
  match splitOnChar '-' s.data with
  | [a, b] => isValidIPv4String (String.mk a) && isValidIPv4String (String.mk b)
  | _ => false

def isHexChar (c : Char) : Bool :=
  isDigitChar c || (decide (97 ≤ c.toNat) && decide (c.toNat ≤ 102)) ||
    (decide (65 ≤ c.toNat) && decide (c.toNat ≤ 70))

def isValidV6Group (s : List Char) : Bool :=
  decide (1 ≤ s.length) && decide (s.length ≤ 4) && s.all isHexChar

/-- Model of `Validator.isValidIPv6String` (ip-num) / `ipaddr.js` IPv6
syntax: colon-separated 16-bit hex groups with at most one `::`. -/
def isValidIPv6String (s : String) : Bool :=
  match splitOnDoubleColon s.data with
  | none =>
    let gs := splitOnChar ':' s.data
    decide (gs.length = 8) && gs.all isValidV6Group
  | some (a, b) =>
    let ga := if a.isEmpty then [] else splitOnChar ':' a
    let gb := if b.isEmpty then [] else splitOnChar ':' b
    (splitOnDoubleColon b).isNone &&
      ga.all isValidV6Group && gb.all isValidV6Group &&
      decide (ga.length + gb.length ≤ 7)

/-- Model of `Validator.isValidIPv6CidrNotation` (ip-num). -/
def isValidIPv6Cidr (s : String) : Bool :=
  match splitOnChar '/' s.data with
  | [ip, p] => isValidIPv6String (String.mk ip) && isValidPrefixLen 128 p
  | _ => false

/-- Model of `Validator.isValidIPv6RangeString` (ip-num). -/
def isValidIPv6Range (s : String) : Bool :=
  match splitOnChar '-' s.data with
  | [a, b] => isValidIPv6String (String.mk a) && isValidIPv6String (String.mk b)
  | _ => false

inductive IpKind
  | ipv4
  | ipv6
deriving DecidableEq

/-- Model of `ipaddr.parse`: returns the parsed kind or throws.  It accepts
only plain host literals: CIDR and hyphenated-range notations throw. -/
def parseIp (s : String) : Except String IpKind :=
  if isValidIPv4String s then .ok .ipv4
  else if isValidIPv6String s then .ok .ipv6
  else .error "ipaddr: the address has neither IPv6 nor IPv4 format"

def hexGroupToNat (l : List Char) : Nat :=
  l.foldl
    (fun n c =>
      n * 16 +
        (if isDigitChar c then c.toNat - 48
         else if 97 ≤ c.toNat then c.toNat - 87
         else c.toNat - 55))
    0

/-- Model of `ipaddr.parse(s).range() == "linkLocal"`: IPv4
`169.254.0.0/16` or IPv6 `fe80::/10`.  Only meaningful when `parseIp`
succeeds. -/
def isLinkLocal (s : String) : Bool :=
  if isValidIPv4String s then
    match splitOnChar '.' s.data with
    | a :: b :: _ => decide (digitsToNat a = 169) && decide (digitsToNat b = 254)
    | _ => false
  else
    match splitOnDoubleColon s.data with
    | some (a, _) =>
      match splitOnChar ':' a with
      | g :: _ =>
        decide (65152 ≤ hexGroupToNat g) && decide (hexGroupToNat g ≤ 65215) &&
          !a.isEmpty
      | _ => false
    | none =>
      match splitOnChar ':' s.data with
      | g :: _ =>
        decide (65152 ≤ hexGroupToNat g) && decide (hexGroupToNat g ≤ 65215)
      | _ => false

def hexDigitChar (n : Nat) : Char :=
  if n < 10 then Char.ofNat (48 + n) else Char.ofNat (87 + (n % 16))

/-- Model of `hashIpAddress` (`ssi.utils.ts`), which delegates to
node's `createHash("md5")`.  The cryptographic permutation is an external
collaborator; this stand-in keeps the two properties the repository relies
on — determinism and a 32-hex-character digest — via a simple 128-bit
polynomial fold of the input. -/
def hashIpAddress (address : String) : String :=
  let h : Nat :=
    address.data.foldl (fun acc c => (acc * 131 + c.toNat + 7) % (2 ^ 128)) 5381
  String.mk (((List.range 32).map (fun i => hexDigitChar ((h / 16 ^ i) % 16))).reverse)

/-! ## `ssi.utils.ts` -/

/-- Keyed lookup on a `JsRecord`: `m[k]`. -/
def jsGet {α : Type} (m : JsRecord α) (k : String) : Option α :=
  (m.find? (fun p => p.1 == k)).map (fun p => p.2)

/-- Decimal rendering of a number below 1000 (netmask octets are below
256, so this covers every use in the model). -/
def natToString (n : Nat) : String :=
  if n < 10 then String.mk [Char.ofNat (48 + n)]
  else if n < 100 then String.mk [Char.ofNat (48 + n / 10), Char.ofNat (48 + n % 10)]
  else String.mk [Char.ofNat (48 + n / 100 % 10), Char.ofNat (48 + n / 10 % 10),
    Char.ofNat (48 + n % 10)]

/-- Model of ip-num `IPv4CidrRange.fromCidr(ip).getPrefix().toMask().toString()`:
the dotted-quad netmask of a prefix length. -/
def maskStringOfPrefix (n : Nat) : String :=
  let mask : Nat := 2 ^ 32 - 2 ^ (32 - n)
  natToString (mask / 2 ^ 24 % 256) ++ "." ++ natToString (mask / 2 ^ 16 % 256) ++
    "." ++ natToString (mask / 2 ^ 8 % 256) ++ "." ++ natToString (mask % 256)

/-- `createIPv4Address` (`ssi.utils.ts`): classifies an IPv4 literal as
host, CIDR, or hyphenated range and builds the address record; returns
`none` for anything else. -/
def createIPv4Address (ip : String) (addressName : String) (isHashed : Bool) :
    Option FortiOSFirewallAddress :=
  if isValidIPv4String ip then
    some { name := addressName, type := .IP_Mask,
           subnet := ip ++ " 255.255.255.255",
           comment := if isHashed then "Hashed address name due to length" else "" }
  else if isValidIPv4Cidr ip then
    let parts := splitOnChar '/' ip.data
    let subnet := String.mk (parts.headD [])
    let subnetMask := maskStringOfPrefix (digitsToNat (parts.getD 1 []))
    some { name := addressName, type := .IP_Mask,
           subnet := subnet ++ " " ++ subnetMask,
           comment := if isHashed then "Hashed address name due to length" else "" }
  else if isValidIPv4Range ip then
    let parts := splitOnChar '-' ip.data
    some { name := addressName, type := .IP_Range,
           startIp := String.mk (parts.headD []),
           endIp := String.mk (parts.getD 1 []),
           comment := if isHashed then "Hashed address name due to length" else "" }
  else none

/-- `createIPv6Address` (`ssi.utils.ts`): only CIDR and hyphenated-range
IPv6 literals produce a record; plain hosts and anything else yield `none`. -/
def createIPv6Address (ip : String) (addressName : String) (isHashed : Bool) :
    Option FortiOSFirewallAddress6 :=
  if isValidIPv6Cidr ip then
    some { name := addressName, type := .IP_Prefix6, ip6 := ip,
           comment := if isHashed then "Hashed address name due to length" else "" }
  else if isValidIPv6Range ip then
    let parts := splitOnChar '-' ip.data
    some { name := addressName, type := .IP_Range6,
           startIp := String.mk (parts.headD []),
           endIp := String.mk (parts.getD 1 []),
           comment := if isHashed then "Hashed address name due to length" else "" }
  else none

structure VMwareNSXTag where
  scope : String
  tag : String
deriving DecidableEq

/-- A virtual network interface; `ip_address_info` is the list of
`ip_addresses` arrays of its address-info entries. -/
structure VMwareNSXVirtualNetworkInterface where
  ip_address_info : List (List String) := []
deriving DecidableEq

/-- An NSX VM.  `vifs` stands for the result of the awaited
`nsx.virtualInterfaces.getVirtualInterfaces` call for this VM. -/
structure VMwareNSXVirtualMachine where
  external_id : String := ""
  display_name : String
  tags : List VMwareNSXTag := []
  vifs : List VMwareNSXVirtualNetworkInterface := []
deriving DecidableEq

/-- An NSX security group.  The fields after `tags` stand for the results
of the awaited per-group NSX sub-queries: `expressionIps` the union of the
match expression's `ip_addresses` (global branch), `epIps` the
enforcement-point member IPs (global branch), and `ipMembersResult` /
`vifsResult` the local-manager member queries, where `none` is a transport
failure that the source `catch`-handler turned into `undefined`. -/
structure VMwareNSXGroup where
  display_name : String
  path : String := ""
  tags : List VMwareNSXTag := []
  expressionIps : List String := []
  epIps : List String := []
  ipMembersResult : Option (List String) := some []
  vifsResult : Option (List VMwareNSXVirtualNetworkInterface) := some []
deriving DecidableEq

/-- `filterVMsByTag` (`ssi.utils.ts`). -/
def filterVMsByTag (vms : List VMwareNSXVirtualMachine) (scope tagName : String) :
    List VMwareNSXVirtualMachine :=
  vms.filter (fun vm => vm.tags.any (fun t => t.scope == scope && t.tag == tagName))

/-- `filterGroupsByTag` (`ssi.utils.ts`). -/
def filterGroupsByTag (groups : List VMwareNSXGroup) (scope tagName : String) :
    List VMwareNSXGroup :=
  groups.filter (fun g => g.tags.any (fun t => t.scope == scope && t.tag == tagName))

/-- `extractIpAddresses` (`ssi.utils.ts`): flattens the interfaces'
address-info IPs, removes duplicates (JS `Set`, first occurrence), and
sorts lexicographically. -/
def extractIpAddresses (vifs : List VMwareNSXVirtualNetworkInterface) : List String :=
  jsSortStrings (dedupFirst ((vifs.flatMap (fun v => v.ip_address_info)).flatMap id))

/-- `removeLinkLocalAddresses` (`ssi.utils.ts`).  Hyphenated ranges are
kept without parsing; otherwise the literal (with any CIDR suffix
stripped) is parsed — `ipaddr.parse` throws on unrecognized input and the
function rethrows, so the result is `Except`.  When the stripped literal
is link-local, the source parses the full literal a second time (which
throws on CIDR input). -/
def removeLinkLocalAddresses : List String → Except String (List String)
  | [] => .ok []
  | address :: rest =>
    if address.data.contains '-' then
      (removeLinkLocalAddresses rest).map (fun l => address :: l)
    else
      let stripped := String.mk ((splitOnChar '/' address.data).headD [])
      match parseIp stripped with
      | .error e => .error e
      | .ok _ =>
        if !isLinkLocal stripped then
          (removeLinkLocalAddresses rest).map (fun l => address :: l)
        else
          match parseIp address with
          | .error e => .error e
          | .ok _ =>
            if !isLinkLocal address then
              (removeLinkLocalAddresses rest).map (fun l => address :: l)
            else removeLinkLocalAddresses rest

/-- `mergeAddressObjects` (`ssi.utils.ts`): entries of `source` are added
only when their key is absent from `target` (first writer wins). -/
def mergeAddressObjects {α : Type} (target source : JsRecord α) : JsRecord α :=
  source.foldl (fun t p => if (jsGet t p.1).isSome then t else t ++ [p]) target

/-- `mergeGroupObjects` (`ssi.utils.ts`): groups only in `incoming` are
added; for groups in both, members are merged through a JS `Map` keyed by
member name (first-occurrence order) and the non-member fields take the
incoming record's values (`\x7b...existing, ...incoming\x7d` spread). -/
def mergeGroupObjects (target incoming : JsRecord FortiOSFirewallAddrGrp) :
    JsRecord FortiOSFirewallAddrGrp :=
  incoming.foldl
    (fun t p =>
      match jsGet t p.1 with
      | none => t ++ [p]
      | some existing =>
        jsSet t p.1 { p.2 with member := dedupFirst (existing.member ++ p.2.member) })
    target

/-! ## `services/nsx.service.ts` -/

/-- The per-manager desired-state fragment returned by both extractors.
The IPv6 group record shape equals the IPv4 one (see
`FortiOSFirewallAddrGrp`). -/
structure Fragment where
  fortiOSIPv4Groups : JsRecord FortiOSFirewallAddrGrp := []
  fortiOSIPv4Addresses : JsRecord FortiOSFirewallAddress := []
  fortiOSIPv6Groups : JsRecord FortiOSFirewallAddrGrp := []
  fortiOSIPv6Addresses : JsRecord FortiOSFirewallAddress6 := []
deriving DecidableEq

def emptyFragment : Fragment := {}

/-- Creates the `Managed by NAM` group record under `k` unless present. -/
def ensureGroup (grps : JsRecord FortiOSFirewallAddrGrp) (k : String) :
    JsRecord FortiOSFirewallAddrGrp :=
  if (jsGet grps k).isSome then grps
  else grps ++ [(k, { name := k, comment := "Managed by NAM", color := 3, member := [] })]

/-- `groups[k].member.push(\x7bname: n\x7d)`. -/
def pushMember (grps : JsRecord FortiOSFirewallAddrGrp) (k n : String) :
    JsRecord FortiOSFirewallAddrGrp :=
  grps.map (fun p => if p.1 == k then (p.1, { p.2 with member := p.2.member ++ [n] }) else p)

/-- Whether `groups[k].member` already records the name `n`. -/
def memberRecorded (grps : JsRecord FortiOSFirewallAddrGrp) (k n : String) : Bool :=
  match jsGet grps k with
  | some g => g.member.contains n
  | none => false

/-- VM-path IPv4 address naming (`nsx.service.ts` l.122-125): the first
resolved IPv4 of a VM gets the bare display name, later ones append the
literal.  No length bound or hashing is applied on this path. -/
def vmIpv4AddressName (display : String) (idx : Nat) (ip : String) : String :=
  if idx = 0 then "nsx_" ++ display else "nsx_" ++ display ++ "_" ++ ip

/-- VM-path IPv6 address naming (`nsx.service.ts` l.144-147). -/
def vmIpv6AddressName (display : String) (idx : Nat) (ip : String) : String :=
  if idx = 0 then "nsx6_" ++ display else "nsx6_" ++ display ++ "_" ++ ip

/-- VM-path IPv4 loop body: store the address record if the name is new
and push the member name unconditionally. -/
def vmAddIPv4 (display g4 : String) (frag : Fragment) (ips : List String) : Fragment :=
  ips.enum.foldl
    (fun fr p =>
      let n := vmIpv4AddressName display p.1 p.2
      let addrs :=
        if (jsGet fr.fortiOSIPv4Addresses n).isSome then fr.fortiOSIPv4Addresses
        else fr.fortiOSIPv4Addresses ++
          [(n, { name := n, type := .IP_Mask, subnet := p.2 ++ " 255.255.255.255",
                 color := 0, comment := "" })]
      { fr with fortiOSIPv4Addresses := addrs,
                fortiOSIPv4Groups := pushMember fr.fortiOSIPv4Groups g4 n })
    frag

/-- VM-path IPv6 loop body. -/
def vmAddIPv6 (display g6 : String) (frag : Fragment) (ips : List String) : Fragment :=
  ips.enum.foldl
    (fun fr p =>
      let n := vmIpv6AddressName display p.1 p.2
      let addrs :=
        if (jsGet fr.fortiOSIPv6Addresses n).isSome then fr.fortiOSIPv6Addresses
        else fr.fortiOSIPv6Addresses ++
          [(n, { name := n, type := .IP_Prefix6, ip6 := p.2 ++ "/128",
                 color := 0, comment := "" })]
      { fr with fortiOSIPv6Addresses := addrs,
                fortiOSIPv6Groups := pushMember fr.fortiOSIPv6Groups g6 n })
    frag

/-- The VM loop's version split: `ipaddr.parse(ip).kind()` on every
surviving literal, in order; a literal `parse` rejects (e.g. a hyphenated
range, which `removeLinkLocalAddresses` keeps) throws. -/
def classifyVmIps : List String → Except String (List String × List String)
  | [] => .ok ([], [])
  | ip :: rest =>
    match parseIp ip with
    | .error e => .error e
    | .ok k =>
      (classifyVmIps rest).map
        (fun p =>
          match k with
          | .ipv4 => (ip :: p.1, p.2)
          | .ipv6 => (p.1, ip :: p.2))

/-- Processing of one tagged VM inside `getVMTagsGroupsAndMembers`. -/
def processVM (g4 g6 : String) (frag : Fragment) (vm : VMwareNSXVirtualMachine) :
    Except String Fragment :=
  let ips := extractIpAddresses vm.vifs
  match removeLinkLocalAddresses ips with
  | .error e => .error e
  | .ok kept =>
    match classifyVmIps kept with
    | .error e => .error e
    | .ok p => .ok (vmAddIPv6 vm.display_name g6 (vmAddIPv4 vm.display_name g4 frag p.1) p.2)

def processVMs (g4 g6 : String) (frag : Fragment) :
    List VMwareNSXVirtualMachine → Except String Fragment
  | [] => .ok frag
  | vm :: rest =>
    match processVM g4 g6 frag vm with
    | .error e => .error e
    | .ok fr => processVMs g4 g6 fr rest

def getVMTagsAux (managerName scope : String)
    (scopedVMs : Option (List VMwareNSXVirtualMachine)) (frag : Fragment) :
    List String → Except String Fragment
  | [] => .ok frag
  | t :: rest =>
    let g4 := "grp_" ++ managerName ++ "_" ++ scope ++ "_" ++ t
    let g6 := "grp6_" ++ managerName ++ "_" ++ scope ++ "_" ++ t
    let frag1 := { frag with
      fortiOSIPv4Groups := ensureGroup frag.fortiOSIPv4Groups g4,
      fortiOSIPv6Groups := ensureGroup frag.fortiOSIPv6Groups g6 }
    match scopedVMs with
    | none => .error "TypeError: Cannot read properties of undefined"
    | some vms =>
      match processVMs g4 g6 frag1 (filterVMsByTag vms scope t) with
      | .error e => .error e
      | .ok fr => getVMTagsAux managerName scope scopedVMs fr rest

/-- `getVMTagsGroupsAndMembers` (`nsx.service.ts`).  `scopedVirtualMachines`
is the tagged-running-VM search result; `none` models a transport failure
whose `catch`-handler returned `undefined` — the subsequent
`filterVMsByTag` call then dereferences `undefined` and the resulting
`TypeError` escapes the extractor. -/
def getVMTagsGroupsAndMembers (managerName scope : String) (vmTags : List String)
    (scopedVirtualMachines : Option (List VMwareNSXVirtualMachine)) :
    Except String Fragment :=
  getVMTagsAux managerName scope scopedVirtualMachines emptyFragment vmTags

/-- Group-path `/32` normalization (`nsx.service.ts` l.352-355). -/
def groupNormalizeIp (ip : String) : String :=
  match splitOnChar '/' ip.data with
  | a :: b :: _ => if b = ['3', '2'] then String.mk a else ip
  | _ => ip

/-- Group-path IPv4 address naming (`nsx.service.ts` l.375-386): canonical
name `nsx_<manager>_<owner>_<ip>` (with `/32` appended for a plain host);
over 79 characters the literal part is replaced by its hash, keeping the
manager/owner prefix.  The boolean is the source's `isHashed` argument,
computed as the length check on the already-reassigned name. -/
def groupIpv4AddressName (managerName displayName ip : String) : String × Bool :=
  let canonical := "nsx_" ++ managerName ++ "_" ++ displayName ++ "_" ++ ip ++
    (if isValidIPv4String ip then "/32" else "")
  let final :=
    if canonical.length > 79 then
      "nsx_" ++ managerName ++ "_" ++ displayName ++ "_" ++ hashIpAddress ip
    else canonical
  (final, decide (final.length > 79))

/-- Group-path IPv6 address naming (`nsx.service.ts` l.410-419): canonical
name `nsx6_<manager>_<owner>_<ip>`; over 79 characters the owner and the
literal are replaced by the literal's hash, keeping only the manager. -/
def groupIpv6AddressName (managerName displayName ip : String) : String × Bool :=
  let canonical := "nsx6_" ++ managerName ++ "_" ++ displayName ++ "_" ++ ip
  let final :=
    if canonical.length > 79 then "nsx6_" ++ managerName ++ "_" ++ hashIpAddress ip
    else canonical
  (final, decide (final.length > 79))

/-- One iteration of the group-path IP loop (`nsx.service.ts` l.351-442):
normalize, skip VIF-resolved literals, classify by the ip-num validators
(silently skipping unrecognized literals), name, store the address record
if new, and push the member name if not yet recorded. -/
def processGroupIp (managerName g4 g6 displayName : String)
    (groupVifAddresses : List String) (frag : Fragment) (ip : String) : Fragment :=
  let normalizedIp := groupNormalizeIp ip
  if groupVifAddresses.contains normalizedIp then frag
  else
    let isIPv4 := isValidIPv4String normalizedIp || isValidIPv4Cidr normalizedIp ||
      isValidIPv4Range normalizedIp
    let isIPv6 := isValidIPv6String normalizedIp || isValidIPv6Cidr normalizedIp ||
      isValidIPv6Range normalizedIp
    if isIPv4 then
      let np := groupIpv4AddressName managerName displayName normalizedIp
      let address := createIPv4Address normalizedIp np.1 np.2
      let addrs :=
        if (jsGet frag.fortiOSIPv4Addresses np.1).isSome then frag.fortiOSIPv4Addresses
        else
          match address with
          | some a => frag.fortiOSIPv4Addresses ++ [(np.1, a)]
          | none => frag.fortiOSIPv4Addresses
      let grps :=
        if memberRecorded frag.fortiOSIPv4Groups g4 np.1 then frag.fortiOSIPv4Groups
        else pushMember frag.fortiOSIPv4Groups g4 np.1
      { frag with fortiOSIPv4Addresses := addrs, fortiOSIPv4Groups := grps }
    else if isIPv6 then
      let np := groupIpv6AddressName managerName displayName normalizedIp
      let addrs :=
        if (jsGet frag.fortiOSIPv6Addresses np.1).isSome then frag.fortiOSIPv6Addresses
        else
          match createIPv6Address normalizedIp np.1 np.2 with
          | some a => frag.fortiOSIPv6Addresses ++ [(np.1, a)]
          | none => frag.fortiOSIPv6Addresses
      let grps :=
        if memberRecorded frag.fortiOSIPv6Groups g6 np.1 then frag.fortiOSIPv6Groups
        else pushMember frag.fortiOSIPv6Groups g6 np.1
      { frag with fortiOSIPv6Addresses := addrs, fortiOSIPv6Groups := grps }
    else frag

/-- Flattening of the member-VIF query result (`nsx.service.ts` l.339-347). -/
def vifIpsOf (vifs : List VMwareNSXVirtualNetworkInterface) : List String :=
  (vifs.flatMap (fun v => v.ip_address_info)).flatMap id

/-- Processing of one tagged NSX group inside
`getGroupTagsGroupsAndMembers`, including the group-record creation that
happens only here (inside the tagged-group loop).  Global branch: the
match-expression IPs are collected but then overwritten by the deduplicated
link-local-filtered enforcement-point IPs (source l.261-295), so only the
latter are processed, with no VIF exclusion.  Local branch: a `none`
(failed) sub-query surfaces as a `TypeError` — first from iterating the
`undefined` VIF list, otherwise from reading the `undefined` element that
`concat(undefined)` appended to the IP list. -/
def processNsxGroup (managerName : String) (isGlobal : Bool) (g4 g6 : String)
    (frag : Fragment) (group : VMwareNSXGroup) : Except String Fragment :=
  let frag1 := { frag with
    fortiOSIPv4Groups := ensureGroup frag.fortiOSIPv4Groups g4,
    fortiOSIPv6Groups := ensureGroup frag.fortiOSIPv6Groups g6 }
  if isGlobal then
    match removeLinkLocalAddresses group.epIps with
    | .error e => .error e
    | .ok kept =>
      let groupIpAddresses := dedupFirst kept
      .ok (groupIpAddresses.foldl
        (processGroupIp managerName g4 g6 group.display_name []) frag1)
  else
    match group.vifsResult with
    | none => .error "TypeError: groupMemberVifs is not iterable"
    | some vifs =>
      match group.ipMembersResult with
      | none => .error "TypeError: Cannot read properties of undefined"
      | some ips =>
        let groupVifAddresses := vifIpsOf vifs
        .ok (ips.foldl
          (processGroupIp managerName g4 g6 group.display_name groupVifAddresses) frag1)

def processNsxGroups (managerName : String) (isGlobal : Bool) (g4 g6 : String)
    (frag : Fragment) : List VMwareNSXGroup → Except String Fragment
  | [] => .ok frag
  | g :: rest =>
    match processNsxGroup managerName isGlobal g4 g6 frag g with
    | .error e => .error e
    | .ok fr => processNsxGroups managerName isGlobal g4 g6 fr rest

def getGroupTagsAux (managerName : String) (isGlobal : Bool) (scope : String)
    (scopedGroups : Option (List VMwareNSXGroup)) (frag : Fragment) :
    List String → Except String Fragment
  | [] => .ok frag
  | t :: rest =>
    let g4 := "grp_" ++ managerName ++ "_" ++ scope ++ "_" ++ t
    let g6 := "grp6_" ++ managerName ++ "_" ++ scope ++ "_" ++ t
    match scopedGroups with
    | none => .error "TypeError: Cannot read properties of undefined"
    | some gs =>
      match processNsxGroups managerName isGlobal g4 g6 frag
          (filterGroupsByTag gs scope t) with
      | .error e => .error e
      | .ok fr => getGroupTagsAux managerName isGlobal scope scopedGroups fr rest

/-- `getGroupTagsGroupsAndMembers` (`nsx.service.ts`).  `isGlobal` is
`manager.type === "global"`; `scopedGroups` is the tagged-group search
result, `none` modelling the transport failure whose handler returned
`undefined` (the subsequent `filterGroupsByTag` then throws). -/
def getGroupTagsGroupsAndMembers (managerName : String) (isGlobal : Bool)
    (scope : String) (groupTags : List String)
    (scopedGroups : Option (List VMwareNSXGroup)) : Except String Fragment :=
  getGroupTagsAux managerName isGlobal scope scopedGroups emptyFragment groupTags

/-! ## `SSIWorker.work` aggregation

Per manager, the worker folds the VM-derived fragment with plain
`Object.assign` (all four maps, source l.135-150) and the group-derived
fragment with `mergeAddressObjects` / `mergeGroupObjects`
(source l.164-183). -/

inductive FragmentKind
  | vmDerived
  | groupDerived
deriving DecidableEq

/-- One step of the worker's accumulation. -/
def foldFragment (acc : Fragment) (k : FragmentKind) (f : Fragment) : Fragment :=
  match k with
  | .vmDerived =>
    { fortiOSIPv4Groups := objectAssign acc.fortiOSIPv4Groups f.fortiOSIPv4Groups,
      fortiOSIPv4Addresses := objectAssign acc.fortiOSIPv4Addresses f.fortiOSIPv4Addresses,
      fortiOSIPv6Groups := objectAssign acc.fortiOSIPv6Groups f.fortiOSIPv6Groups,
      fortiOSIPv6Addresses := objectAssign acc.fortiOSIPv6Addresses f.fortiOSIPv6Addresses }
  | .groupDerived =>
    { fortiOSIPv4Groups := mergeGroupObjects acc.fortiOSIPv4Groups f.fortiOSIPv4Groups,
      fortiOSIPv4Addresses := mergeAddressObjects acc.fortiOSIPv4Addresses f.fortiOSIPv4Addresses,
      fortiOSIPv6Groups := mergeGroupObjects acc.fortiOSIPv6Groups f.fortiOSIPv6Groups,
      fortiOSIPv6Addresses := mergeAddressObjects acc.fortiOSIPv6Addresses f.fortiOSIPv6Addresses }

/-- The worker's whole desired-state aggregation over the managers'
fragments, in arrival order. -/
def workAggregate (frags : List (FragmentKind × Fragment)) : Fragment :=
  frags.foldl (fun acc p => foldFragment acc p.1 p.2) emptyFragment

/-! ## `services/fortios.service.ts`

`deployIPv4` and `deployIPv6` differ only in record types and endpoint
names; both are instances of `deploy` below, on the success path of every
firewall mutation (per-mutation failures are logged and skipped by the
source).  The firewall inventory is the live state threaded through the
pass; the group snapshot used for diffing is fetched once up front. -/

/-- Live firewall inventory of one vdom, for address type `α`. -/
structure FirewallState (α : Type) where
  addresses : List α
  groups : List FortiOSFirewallAddrGrp
deriving DecidableEq

structure GroupUpdate where
  name : String
  added : List String
  removed : List String
deriving DecidableEq

/-- The mutations one `deploy` pass issues, in order of the source's four
steps. -/
structure DeployPlan where
  createdAddresses : List String
  createdGroups : List String
  updatedGroups : List GroupUpdate
  deletedAddresses : List String
  skippedInUse : List String
deriving DecidableEq

/-- The empty (no-op) reconciliation plan. -/
def DeployPlan.empty : DeployPlan := ⟨[], [], [], [], []⟩

def findNamed (gs : List FortiOSFirewallAddrGrp) (n : String) :
    Option FortiOSFirewallAddrGrp :=
  gs.find? (fun x => x.name == n)

/-- Members only present in the desired group (`added`, source l.125-127). -/
def diffAdded (g ex : FortiOSFirewallAddrGrp) : List String :=
  g.member.filter (fun m => !ex.member.contains m)

/-- Members only present on the FortiGate (`removed`, source l.130-132). -/
def diffRemoved (g ex : FortiOSFirewallAddrGrp) : List String :=
  ex.member.filter (fun m => !g.member.contains m)

/-- Modelled from the spec: `addressInUse` / `address6InUse` are imported
from `ssi.utils.ts` but not defined in the provided sources.  Per the
spec, the liveness check for deletion is a query "capable of determining
whether an address name is referenced by any group in a firewall domain
(implemented by scanning current group memberships)": it scans the
memberships of all the firewall's current groups at the moment of the
call. -/
def addressInUse {α : Type} (st : FirewallState α) (addrName : String) : Bool :=
  st.groups.any (fun g => g.member.contains addrName)

/-- Step 4 for one updated group: walk the removed members in order; a
member still referenced by any current group is skipped, otherwise its
address object is deleted from the firewall.  Returns the new state, the
deleted names and the skipped-in-use names. -/
def processRemoved {α : Type} (nameOf : α → String) :
    FirewallState α → List String → FirewallState α × List String × List String
  | st, [] => (st, [], [])
  | st, a :: rest =>
    if addressInUse st a then
      let r := processRemoved nameOf st rest
      (r.1, r.2.1, a :: r.2.2)
    else
      let st1 : FirewallState α :=
        { st with addresses := st.addresses.filter (fun x => nameOf x != a) }
      let r := processRemoved nameOf st1 rest
      (r.1, a :: r.2.1, r.2.2)

/-- Steps 3-4: for each desired group found in the up-front group
snapshot, diff members by name; on any change push the full desired
record as the update, then run the safe-delete walk over the removed
members.  Returns the final state, the updates, the deleted names and the
skipped names. -/
def processGroups {α : Type} (nameOf : α → String)
    (fgGroups : List FortiOSFirewallAddrGrp) :
    FirewallState α → List FortiOSFirewallAddrGrp →
      FirewallState α × List GroupUpdate × List String × List String
  | st, [] => (st, [], [], [])
  | st, g :: rest =>
    match findNamed fgGroups g.name with
    | none => processGroups nameOf fgGroups st rest
    | some existingGroup =>
      let added := diffAdded g existingGroup
      let removed := diffRemoved g existingGroup
      if added.isEmpty && removed.isEmpty then processGroups nameOf fgGroups st rest
      else
        let st1 : FirewallState α :=
          { st with groups := st.groups.map (fun fg => if fg.name == g.name then g else fg) }
        let pr := processRemoved nameOf st1 removed
        let r := processGroups nameOf fgGroups pr.1 rest
        (r.1, ⟨g.name, added, removed⟩ :: r.2.1, pr.2.1 ++ r.2.2.1, pr.2.2 ++ r.2.2.2)

/-- One reconciliation pass (`deployIPv4` / `deployIPv6`): snapshot the
firewall's addresses and groups, create the missing desired addresses,
then the missing desired groups (with their desired members), then update
changed groups and safe-delete the members removed from them. -/
def deploy {α : Type} (nameOf : α → String) (desiredGroups : JsRecord FortiOSFirewallAddrGrp)
    (desiredAddresses : JsRecord α) (fw : FirewallState α) :
    DeployPlan × FirewallState α :=
  let missingAddresses := (jsValues desiredAddresses).filter
    (fun a => !(fw.addresses.any (fun x => nameOf x == nameOf a)))
  let missingGroups := (jsValues desiredGroups).filter
    (fun g => !(fw.groups.any (fun x => x.name == g.name)))
  let st0 : FirewallState α :=
    ⟨fw.addresses ++ missingAddresses, fw.groups ++ missingGroups⟩
  let r := processGroups nameOf fw.groups st0 (jsValues desiredGroups)
  (⟨missingAddresses.map nameOf, missingGroups.map (fun g => g.name),
    r.2.1, r.2.2.1, r.2.2.2⟩, r.1)

/-- `deployIPv4` (`fortios.service.ts` l.23-214). -/
def deployIPv4 (fortiOSIPv4Groups : JsRecord FortiOSFirewallAddrGrp)
    (fortiOSIPv4Addresses : JsRecord FortiOSFirewallAddress)
    (fw : FirewallState FortiOSFirewallAddress) :
    DeployPlan × FirewallState FortiOSFirewallAddress :=
  deploy (fun a => a.name) fortiOSIPv4Groups fortiOSIPv4Addresses fw

/-- `deployIPv6` (`fortios.service.ts` l.216-407). -/
def deployIPv6 (fortiOSIPv6Groups : JsRecord FortiOSFirewallAddrGrp)
    (fortiOSIPv6Addresses : JsRecord FortiOSFirewallAddress6)
    (fw : FirewallState FortiOSFirewallAddress6) :
    DeployPlan × FirewallState FortiOSFirewallAddress6 :=
  deploy (fun a => a.name) fortiOSIPv6Groups fortiOSIPv6Addresses fw

/-! ## Auxiliary definitions for the verification -/

/-- Replace a firewall group by the desired group of the same name (the
effect of `updateAddressGroup(group.name, group)` on one stored group). -/
def replaceNamed (g fg : FortiOSFirewallAddrGrp) : FortiOSFirewallAddrGrp :=
  if fg.name == g.name then g else fg

/-- Whether the deploy update loop considers desired group `g` changed
against the snapshot `fg` (found there and with a non-empty member diff). -/
def groupChanged (fg : List FortiOSFirewallAddrGrp) (g : FortiOSFirewallAddrGrp) : Bool :=
  match findNamed fg g.name with
  | none => false
  | some ex => !((diffAdded g ex).isEmpty && (diffRemoved g ex).isEmpty)

/-- The accumulated effect of the update loop on the firewall's stored
group list. -/
def updFold (fg : List FortiOSFirewallAddrGrp) (gs : List FortiOSFirewallAddrGrp)
    (vs : List FortiOSFirewallAddrGrp) : List FortiOSFirewallAddrGrp :=
  vs.foldl (fun acc g => if groupChanged fg g then acc.map (replaceNamed g) else acc) gs

/-- Member names of the group stored under `k`, for set-level statements. -/
def groupMemberNames (m : JsRecord FortiOSFirewallAddrGrp) (k : String) : List String :=
  match jsGet m k with
  | some g => g.member
  | none => []

/-- The member names contributed to key `k` by a fragment's entries. -/
def fragmentMembersAt (m : JsRecord FortiOSFirewallAddrGrp) (k : String) : List String :=
  (m.filter (fun p => p.1 == k)).flatMap (fun p => p.2.member)

/-! Concrete instances used to settle the claims. -/

def longOwnerName : String := String.mk (List.replicate 70 'a')

def longOwnerName62 : String := String.mk (List.replicate 62 'a')

def longVmDisplayName : String := String.mk (List.replicate 80 'a')

def vmOneIp : VMwareNSXVirtualMachine :=
  { display_name := "vm", tags := [⟨"s", "t"⟩], vifs := [⟨[["10.0.0.2"]]⟩] }

def vmTwoIps : VMwareNSXVirtualMachine :=
  { display_name := "vm", tags := [⟨"s", "t"⟩], vifs := [⟨[["10.0.0.2", "10.0.0.1"]]⟩] }

def taggedNsxGroup : VMwareNSXGroup :=
  { display_name := "ng", tags := [⟨"s", "t"⟩],
    ipMembersResult := some ["10.0.0.7"], vifsResult := some [] }

/-- The fragment the group extractor returns on `taggedNsxGroup`. -/
def taggedNsxGroupFragment : Fragment :=
  match getGroupTagsGroupsAndMembers "m" false "s" ["t"] (some [taggedNsxGroup]) with
  | .ok f => f
  | .error _ => emptyFragment

def addrA : FortiOSFirewallAddress :=
  { name := "a", type := .IP_Mask, subnet := "10.0.0.9 255.255.255.255" }

def addrA6 : FortiOSFirewallAddress6 :=
  { name := "a", type := .IP_Prefix6, ip6 := "2001:db8::9/128" }

/-- Desired v4 groups for the idempotence counterexample: the address
named `a` moves from group `g` to group `g2`. -/
def moveDesiredGroups : JsRecord FortiOSFirewallAddrGrp :=
  [("g", { name := "g", member := [] }), ("g2", { name := "g2", member := ["a"] })]

def moveDesiredAddresses : JsRecord FortiOSFirewallAddress := [("a", addrA)]

def moveFirewall : FirewallState FortiOSFirewallAddress :=
  { addresses := [addrA],
    groups := [{ name := "g", member := ["a"] }, { name := "g2", member := [] }] }

def moveDesiredAddresses6 : JsRecord FortiOSFirewallAddress6 := [("a", addrA6)]

def moveFirewall6 : FirewallState FortiOSFirewallAddress6 :=
  { addresses := [addrA6],
    groups := [{ name := "g", member := ["a"] }, { name := "g2", member := [] }] }

/-- A firewall group that no desired group shares a name with, holding
the address `a`; it keeps `a` referenced during the safe-delete walk. -/
def keepGroup : FortiOSFirewallAddrGrp := { name := "keep", member := ["a"] }

def safeDeleteDesired : JsRecord FortiOSFirewallAddrGrp :=
  [("g", { name := "g", member := [] })]

def safeDeleteFirewall : FirewallState FortiOSFirewallAddress :=
  { addresses := [addrA],
    groups := [{ name := "g", member := ["a"] }, keepGroup] }

def safeDeleteFirewall6 : FirewallState FortiOSFirewallAddress6 :=
  { addresses := [addrA6],
    groups := [{ name := "g", member := ["a"] }, keepGroup] }

/-- Inputs for the idempotence witness: a membership update with no
deletions on the first pass. -/
def idemGroups : JsRecord FortiOSFirewallAddrGrp :=
  [("g", { name := "g", member := ["a"] })]

def idemAddresses : JsRecord FortiOSFirewallAddress := [("a", addrA)]

def idemFirewall : FirewallState FortiOSFirewallAddress :=
  { addresses := [], groups := [{ name := "g", member := [] }] }

def idemAddresses6 : JsRecord FortiOSFirewallAddress6 := [("a", addrA6)]

def idemFirewall6 : FirewallState FortiOSFirewallAddress6 :=
  { addresses := [], groups := [{ name := "g", member := [] }] }

/-- Two VM-derived fragments storing different records under one name. -/
def vmFragmentOne : Fragment :=
  { fortiOSIPv4Addresses := [("nsx_vm", addrA)] }

def vmFragmentTwo : Fragment :=
  { fortiOSIPv4Addresses :=
      [("nsx_vm", { name := "nsx_vm", type := .IP_Mask, subnet := "10.9.9.9 255.255.255.255" })] }

/-! ## General lemmas about the record primitives -/

theorem jsGet_append_left {α : Type} {t : JsRecord α} {k : String} {v : α}
    (l : JsRecord α) (h : jsGet t k = some v) : jsGet (t ++ l) k = some v := by
  unfold jsGet at h ⊢
  rw [List.find?_append]
  rcases h1 : t.find? (fun p => p.1 == k) with _ | p
  · simp [h1] at h
  · simpa [h1] using h

theorem jsGet_append_right {α : Type} {t : JsRecord α} {k : String}
    (l : JsRecord α) (h : jsGet t k = none) : jsGet (t ++ l) k = jsGet l k := by
  unfold jsGet at h ⊢
  rw [List.find?_append]
  rcases h1 : t.find? (fun p => p.1 == k) with _ | p
  · simp [h1]
  · simp [h1] at h

theorem jsGet_isSome_append {α : Type} {t : JsRecord α} {k : String}
    (l : JsRecord α) (h : (jsGet t k).isSome = true) :
    (jsGet (t ++ l) k).isSome = true := by
  rcases h1 : jsGet t k with _ | v
  · simp [h1] at h
  · simp [jsGet_append_left l h1]

theorem jsGet_pushMember {grps : JsRecord FortiOSFirewallAddrGrp} {k n k1 : String} :
    (jsGet (pushMember grps k n) k1).isSome = (jsGet grps k1).isSome := by
  induction grps with
  | nil => simp [pushMember, jsGet]
  | cons p rest ih =>
    by_cases h1 : p.1 == k <;> by_cases h2 : p.1 == k1 <;>
      simp_all [pushMember, jsGet, List.find?_cons]

theorem jsGet_ensureGroup_self {grps : JsRecord FortiOSFirewallAddrGrp}
    {k : String} : (jsGet (ensureGroup grps k) k).isSome = true := by
  unfold ensureGroup
  rcases h1 : jsGet grps k with _ | g
  · simp only [h1, Option.isSome_none, Bool.false_eq_true, if_false]
    rw [jsGet_append_right _ h1]
    simp [jsGet]
  · simp [h1]

theorem jsGet_ensureGroup_isSome {grps : JsRecord FortiOSFirewallAddrGrp}
    {k k1 : String} (h : (jsGet grps k1).isSome = true) :
    (jsGet (ensureGroup grps k) k1).isSome = true := by
  unfold ensureGroup
  split
  · exact h
  · exact jsGet_isSome_append _ h

theorem mem_dedupFirstAux {y : String} :
    ∀ (l seen : List String), y ∈ dedupFirstAux seen l ↔ (y ∈ l ∧ ¬ y ∈ seen) := by
  intro l
  induction l with
  | nil => intro seen; simp [dedupFirstAux]
  | cons x xs ih =>
    intro seen
    rw [dedupFirstAux]
    by_cases hx : x ∈ seen
    · rw [if_pos (by simpa using hx), ih]
      constructor
      · rintro ⟨h1, h2⟩; exact ⟨List.mem_cons_of_mem _ h1, h2⟩
      · rintro ⟨h1, h2⟩
        rcases List.mem_cons.mp h1 with h1 | h1
        · exact absurd (h1 ▸ hx) h2
        · exact ⟨h1, h2⟩
    · rw [if_neg (by simpa using hx)]
      simp only [List.mem_cons, ih, List.mem_append, List.mem_singleton]
      by_cases hyx : y = x
      · simp [hyx, hx]
      · simp [hyx]

theorem mem_dedupFirst {l : List String} {x : String} :
    x ∈ dedupFirst l ↔ x ∈ l := by
  rw [dedupFirst, mem_dedupFirstAux]
  simp

theorem processGroupIp_groups_isSome {m g4 g6 d : String} {vifs : List String}
    {frag : Fragment} {ip k : String} :
    ((jsGet (processGroupIp m g4 g6 d vifs frag ip).fortiOSIPv4Groups k).isSome =
      (jsGet frag.fortiOSIPv4Groups k).isSome) ∧
    ((jsGet (processGroupIp m g4 g6 d vifs frag ip).fortiOSIPv6Groups k).isSome =
      (jsGet frag.fortiOSIPv6Groups k).isSome) := by
  unfold processGroupIp
  dsimp only
  split_ifs <;> constructor <;> simp [jsGet_pushMember]

theorem foldGroupIp_v4_isSome {m g4 g6 d : String} {vifs : List String} {k : String} :
    ∀ (ips : List String) (frag : Fragment),
      (jsGet frag.fortiOSIPv4Groups k).isSome = true →
      (jsGet ((ips.foldl (processGroupIp m g4 g6 d vifs) frag)).fortiOSIPv4Groups k).isSome
        = true := by
  intro ips
  induction ips with
  | nil => intro frag h; simpa using h
  | cons ip rest ih =>
    intro frag h
    simp only [List.foldl_cons]
    exact ih _ (by rw [processGroupIp_groups_isSome.1]; exact h)

theorem foldGroupIp_v6_isSome {m g4 g6 d : String} {vifs : List String} {k : String} :
    ∀ (ips : List String) (frag : Fragment),
      (jsGet frag.fortiOSIPv6Groups k).isSome = true →
      (jsGet ((ips.foldl (processGroupIp m g4 g6 d vifs) frag)).fortiOSIPv6Groups k).isSome
        = true := by
  intro ips
  induction ips with
  | nil => intro frag h; simpa using h
  | cons ip rest ih =>
    intro frag h
    simp only [List.foldl_cons]
    exact ih _ (by rw [processGroupIp_groups_isSome.2]; exact h)

theorem processNsxGroup_ok_groups {m : String} {isGlobal : Bool} {g4 g6 : String}
    {frag fr : Fragment} {g : VMwareNSXGroup}
    (h : processNsxGroup m isGlobal g4 g6 frag g = .ok fr) :
    (jsGet fr.fortiOSIPv4Groups g4).isSome = true ∧
    (jsGet fr.fortiOSIPv6Groups g6).isSome = true := by
  unfold processNsxGroup at h
  split at h
  · split at h
    · exact absurd h (by simp)
    · rw [Except.ok.injEq] at h
      subst h
      exact ⟨foldGroupIp_v4_isSome _ _ jsGet_ensureGroup_self,
        foldGroupIp_v6_isSome _ _ jsGet_ensureGroup_self⟩
  · split at h
    · exact absurd h (by simp)
    · split at h
      · exact absurd h (by simp)
      · rw [Except.ok.injEq] at h
        subst h
        exact ⟨foldGroupIp_v4_isSome _ _ jsGet_ensureGroup_self,
          foldGroupIp_v6_isSome _ _ jsGet_ensureGroup_self⟩

theorem processNsxGroup_preserves {m : String} {isGlobal : Bool} {g4 g6 : String}
    {frag fr : Fragment} {g : VMwareNSXGroup} {k : String}
    (h : processNsxGroup m isGlobal g4 g6 frag g = .ok fr) :
    ((jsGet frag.fortiOSIPv4Groups k).isSome = true →
      (jsGet fr.fortiOSIPv4Groups k).isSome = true) ∧
    ((jsGet frag.fortiOSIPv6Groups k).isSome = true →
      (jsGet fr.fortiOSIPv6Groups k).isSome = true) := by
  unfold processNsxGroup at h
  split at h
  · split at h
    · exact absurd h (by simp)
    · rw [Except.ok.injEq] at h
      subst h
      exact ⟨fun hp => foldGroupIp_v4_isSome _ _ (jsGet_ensureGroup_isSome hp),
        fun hp => foldGroupIp_v6_isSome _ _ (jsGet_ensureGroup_isSome hp)⟩
  · split at h
    · exact absurd h (by simp)
    · split at h
      · exact absurd h (by simp)
      · rw [Except.ok.injEq] at h
        subst h
        exact ⟨fun hp => foldGroupIp_v4_isSome _ _ (jsGet_ensureGroup_isSome hp),
          fun hp => foldGroupIp_v6_isSome _ _ (jsGet_ensureGroup_isSome hp)⟩

theorem processNsxGroups_preserves {m : String} {isGlobal : Bool} {g4 g6 : String}
    {k : String} :
    ∀ (gl : List VMwareNSXGroup) (frag fr : Fragment),
      processNsxGroups m isGlobal g4 g6 frag gl = .ok fr →
      ((jsGet frag.fortiOSIPv4Groups k).isSome = true →
        (jsGet fr.fortiOSIPv4Groups k).isSome = true) ∧
      ((jsGet frag.fortiOSIPv6Groups k).isSome = true →
        (jsGet fr.fortiOSIPv6Groups k).isSome = true) := by
  intro gl
  induction gl with
  | nil =>
    intro frag fr h
    rw [processNsxGroups, Except.ok.injEq] at h
    subst h
    exact ⟨id, id⟩
  | cons g rest ih =>
    intro frag fr h
    rw [processNsxGroups] at h
    rcases h1 : processNsxGroup m isGlobal g4 g6 frag g with e | f1
    · rw [h1] at h; exact absurd h (by simp)
    · rw [h1] at h
      exact ⟨fun hp => (ih f1 fr h).1 ((processNsxGroup_preserves h1).1 hp),
        fun hp => (ih f1 fr h).2 ((processNsxGroup_preserves h1).2 hp)⟩

theorem nodup_dedupFirstAux : ∀ (l seen : List String), (dedupFirstAux seen l).Nodup := by
  intro l
  induction l with
  | nil => intro seen; simp [dedupFirstAux]
  | cons x xs ih =>
    intro seen
    rw [dedupFirstAux]
    split
    · exact ih seen
    · refine List.nodup_cons.mpr ⟨?_, ih _⟩
      intro hmem
      exact (mem_dedupFirstAux xs _).mp hmem |>.2 (by simp)

theorem nodup_dedupFirst {l : List String} : (dedupFirst l).Nodup :=
  nodup_dedupFirstAux l []

theorem charListLe_total : ∀ a b : List Char, charListLe a b = true ∨ charListLe b a = true := by
  intro a
  induction a with
  | nil => intro b; left; rfl
  | cons x xs ih =>
    intro b
    cases b with
    | nil => right; rfl
    | cons y ys =>
      simp only [charListLe]
      by_cases hxy : x.toNat < y.toNat
      · left; simp [hxy]
      · by_cases hyx : y.toNat < x.toNat
        · right; simp [hyx]
        · rcases ih ys with h | h
          · left; rw [if_neg hxy, if_neg hyx]; exact h
          · right; rw [if_neg hyx, if_neg hxy]; exact h

theorem charListLe_trans : ∀ a b c : List Char,
    charListLe a b = true → charListLe b c = true → charListLe a c = true := by
  intro a
  induction a with
  | nil => intro b c _ _; rfl
  | cons x xs ih =>
    intro b c hab hbc
    cases b with
    | nil => simp [charListLe] at hab
    | cons y ys =>
      cases c with
      | nil => simp [charListLe] at hbc
      | cons z zs =>
        simp only [charListLe] at hab hbc ⊢
        by_cases hxz : x.toNat < z.toNat
        · simp [hxz]
        · rw [if_neg hxz]
          by_cases hxy : x.toNat < y.toNat
          · by_cases hyz : y.toNat < z.toNat
            · omega
            · by_cases hzy : z.toNat < y.toNat
              · rw [if_neg hyz, if_pos hzy] at hbc; exact absurd hbc (by simp)
              · omega
          · by_cases hyx : y.toNat < x.toNat
            · rw [if_neg hxy, if_pos hyx] at hab; exact absurd hab (by simp)
            · by_cases hyz : y.toNat < z.toNat
              · omega
              · by_cases hzy : z.toNat < y.toNat
                · rw [if_neg hyz, if_pos hzy] at hbc; exact absurd hbc (by simp)
                · have hzx : ¬ z.toNat < x.toNat := by omega
                  rw [if_neg hzx]
                  rw [if_neg hxy, if_neg hyx] at hab
                  rw [if_neg hyz, if_neg hzy] at hbc
                  exact ih ys zs hab hbc

theorem charListLe_antisymm : ∀ a b : List Char,
    charListLe a b = true → charListLe b a = true → a = b := by
  intro a
  induction a with
  | nil =>
    intro b h1 h2
    cases b with
    | nil => rfl
    | cons y ys => simp [charListLe] at h2
  | cons x xs ih =>
    intro b h1 h2
    cases b with
    | nil => simp [charListLe] at h1
    | cons y ys =>
      simp only [charListLe] at h1 h2
      by_cases hxy : x.toNat < y.toNat
      · rw [if_neg (by omega), if_pos hxy] at h2; exact absurd h2 (by simp)
      · by_cases hyx : y.toNat < x.toNat
        · rw [if_neg hxy, if_pos hyx] at h1; exact absurd h1 (by simp)
        · rw [if_neg hxy, if_neg hyx] at h1
          rw [if_neg hyx, if_neg hxy] at h2
          have hn : x.toNat = y.toNat := by omega
          have hv : x.val.toNat = y.val.toNat := hn
          have hx : x = y := Char.ext (UInt32.toNat.inj hv)
          rw [hx, ih ys h1 h2]

theorem isTotal_jsStringLe : IsTotal String (fun a b => jsStringLe a b = true) :=
  ⟨fun a b => charListLe_total a.data b.data⟩

theorem isTrans_jsStringLe : IsTrans String (fun a b => jsStringLe a b = true) :=
  ⟨fun a b c => charListLe_trans a.data b.data c.data⟩

theorem isAntisymm_jsStringLe : IsAntisymm String (fun a b => jsStringLe a b = true) := by
  refine ⟨fun a b h1 h2 => ?_⟩
  cases a; cases b
  exact congrArg String.mk (charListLe_antisymm _ _ h1 h2)

theorem jsSortStrings_eq_of_perm {l1 l2 : List String} (h : List.Perm l1 l2) :
    jsSortStrings l1 = jsSortStrings l2 := by
  unfold jsSortStrings
  exact @List.eq_of_perm_of_sorted String (fun a b => jsStringLe a b = true)
    isAntisymm_jsStringLe _ _
    ((List.perm_insertionSort _ l1).trans
      (h.trans (List.perm_insertionSort _ l2).symm))
    (@List.sorted_insertionSort String (fun a b => jsStringLe a b = true) _
      isTotal_jsStringLe isTrans_jsStringLe l1)
    (@List.sorted_insertionSort String (fun a b => jsStringLe a b = true) _
      isTotal_jsStringLe isTrans_jsStringLe l2)

theorem jsGet_mergeAddressObjects {α : Type} :
    ∀ (source target : JsRecord α) (k : String) (v : α),
      jsGet target k = some v → jsGet (mergeAddressObjects target source) k = some v := by
  intro source
  induction source with
  | nil => intro t k v h; simpa [mergeAddressObjects] using h
  | cons p rest ih =>
    intro t k v h
    have hstep : mergeAddressObjects t (p :: rest) =
        mergeAddressObjects (if (jsGet t p.1).isSome then t else t ++ [p]) rest := by
      simp [mergeAddressObjects]
    rw [hstep]
    split
    · exact ih t k v h
    · exact ih _ k v (jsGet_append_left _ h)

theorem jsGet_jsSet_self {α : Type} : ∀ (t : JsRecord α) (k : String) (v : α),
    jsGet (jsSet t k v) k = some v := by
  intro t
  induction t with
  | nil => intro k v; simp [jsSet, jsGet, List.find?_cons]
  | cons p rest ih =>
    intro k v
    obtain ⟨k1, v1⟩ := p
    rw [jsSet]
    split
    · rename_i hk
      simp [jsGet, List.find?_cons, hk]
    · rename_i hk
      have hb : (k1 == k) = false := beq_eq_false_iff_ne.mpr hk
      simpa [jsGet, List.find?_cons, hb] using ih k v

theorem jsGet_jsSet_ne {α : Type} {k1 k : String} (hne : k1 ≠ k) :
    ∀ (t : JsRecord α) (v : α), jsGet (jsSet t k v) k1 = jsGet t k1 := by
  intro t
  induction t with
  | nil =>
    intro v
    have hb : (k == k1) = false := beq_eq_false_iff_ne.mpr (Ne.symm hne)
    simp [jsSet, jsGet, List.find?_cons, hb]
  | cons p rest ih =>
    intro v
    obtain ⟨k2, v2⟩ := p
    rw [jsSet]
    split
    · rename_i hk
      subst hk
      have hb : (k2 == k1) = false := beq_eq_false_iff_ne.mpr (Ne.symm hne)
      simp [jsGet, List.find?_cons, hb]
    · rcases h1 : (k2 == k1) with _ | _
      · simpa [jsGet, List.find?_cons, h1] using ih v
      · simp [jsGet, List.find?_cons, h1]

theorem jsGet_append_single_ne {α : Type} {t : JsRecord α} {k : String}
    {p : String × α} (h : p.1 ≠ k) : jsGet (t ++ [p]) k = jsGet t k := by
  rcases h1 : jsGet t k with _ | v
  · rw [jsGet_append_right _ h1]
    have hb : (p.1 == k) = false := beq_eq_false_iff_ne.mpr h
    simp [jsGet, List.find?_cons, hb]
  · rw [jsGet_append_left _ h1]

theorem mem_groupMemberNames_merge :
    ∀ (inc t : JsRecord FortiOSFirewallAddrGrp) (k n : String),
      (n ∈ groupMemberNames (mergeGroupObjects t inc) k ↔
        (n ∈ groupMemberNames t k ∨ n ∈ fragmentMembersAt inc k)) := by
  intro inc
  induction inc with
  | nil => intro t k n; simp [mergeGroupObjects, fragmentMembersAt]
  | cons p rest ih =>
    intro t k n
    have hstep : mergeGroupObjects t (p :: rest) = mergeGroupObjects
        (match jsGet t p.1 with
         | none => t ++ [p]
         | some existing =>
           jsSet t p.1 { p.2 with member := dedupFirst (existing.member ++ p.2.member) })
        rest := by
      simp [mergeGroupObjects]
    have hfm : fragmentMembersAt (p :: rest) k =
        (if p.1 == k then p.2.member else []) ++ fragmentMembersAt rest k := by
      simp only [fragmentMembersAt, List.filter_cons]
      split <;> simp_all
    rw [hstep, ih, hfm]
    by_cases hpk : p.1 = k
    · subst hpk
      rcases h1 : jsGet t p.1 with _ | ex
      · dsimp only
        have h2 : groupMemberNames (t ++ [p]) p.1 = p.2.member := by
          unfold groupMemberNames
          rw [jsGet_append_right _ h1]
          simp [jsGet, List.find?_cons]
        have h3 : groupMemberNames t p.1 = [] := by
          unfold groupMemberNames; rw [h1]
        simp [h2, h3]
      · dsimp only
        have h2 : groupMemberNames
            (jsSet t p.1 { p.2 with member := dedupFirst (ex.member ++ p.2.member) }) p.1 =
            dedupFirst (ex.member ++ p.2.member) := by
          unfold groupMemberNames
          rw [jsGet_jsSet_self]
        have h3 : groupMemberNames t p.1 = ex.member := by
          unfold groupMemberNames; rw [h1]
        simp only [h2, h3, beq_self_eq_true, if_true, List.mem_append, mem_dedupFirst]
        tauto
    · have h4 : (if (p.1 == k) = true then p.2.member else []) = [] := by
        simp [hpk]
      rw [h4]
      rcases h1 : jsGet t p.1 with _ | ex
      · dsimp only
        have h2 : groupMemberNames (t ++ [p]) k = groupMemberNames t k := by
          unfold groupMemberNames
          rw [jsGet_append_single_ne hpk]
        simp [h2]
      · dsimp only
        have h2 : groupMemberNames
            (jsSet t p.1 { p.2 with member := dedupFirst (ex.member ++ p.2.member) }) k =
            groupMemberNames t k := by
          unfold groupMemberNames
          rw [jsGet_jsSet_ne (fun hc => hpk hc.symm)]
        simp [h2]

theorem addressInUse_of_mem {α : Type} {st : FirewallState α}
    {g' : FortiOSFirewallAddrGrp} {a : String}
    (hg : g' ∈ st.groups) (ha : a ∈ g'.member) : addressInUse st a = true := by
  unfold addressInUse
  rw [List.any_eq_true]
  exact ⟨g', hg, by simpa using ha⟩

theorem processRemoved_groups {α : Type} {nameOf : α → String} :
    ∀ (removed : List String) (st : FirewallState α),
      ((processRemoved nameOf st removed).1).groups = st.groups := by
  intro removed
  induction removed with
  | nil => intro st; rfl
  | cons b rest ih =>
    intro st
    rw [processRemoved]
    split
    · exact ih st
    · exact ih _

theorem findNamed_some_name {gs : List FortiOSFirewallAddrGrp} {n : String}
    {x : FortiOSFirewallAddrGrp} (h : findNamed gs n = some x) : x.name = n := by
  have := List.find?_some h
  simpa using this

theorem name_replaceNamed {g fg : FortiOSFirewallAddrGrp} :
    (replaceNamed g fg).name = fg.name := by
  unfold replaceNamed
  split
  · rename_i h
    simp only [beq_iff_eq] at h
    exact h.symm
  · rfl

theorem findNamed_map_replaceNamed {g : FortiOSFirewallAddrGrp} {n : String} :
    ∀ gs : List FortiOSFirewallAddrGrp,
      findNamed (gs.map (replaceNamed g)) n = (findNamed gs n).map (replaceNamed g) := by
  intro gs
  induction gs with
  | nil => rfl
  | cons fg rest ih =>
    simp only [List.map_cons, findNamed, List.find?_cons]
    rw [@name_replaceNamed g fg]
    rcases h : (fg.name == n) with _ | _
    · exact ih
    · rfl

theorem findNamed_map_replace_of_ne {g : FortiOSFirewallAddrGrp} {n : String}
    (hne : n ≠ g.name) (gs : List FortiOSFirewallAddrGrp) :
    findNamed (gs.map (replaceNamed g)) n = findNamed gs n := by
  rw [findNamed_map_replaceNamed]
  rcases h : findNamed gs n with _ | x
  · rfl
  · have hx : x.name = n := findNamed_some_name h
    have : replaceNamed g x = x := by
      unfold replaceNamed
      rw [if_neg]
      simp only [beq_iff_eq, hx]
      exact hne
    simp [this]

theorem names_map_replaceNamed {g : FortiOSFirewallAddrGrp}
    {gs : List FortiOSFirewallAddrGrp} :
    (gs.map (replaceNamed g)).map (fun x => x.name) = gs.map (fun x => x.name) := by
  rw [List.map_map]
  exact List.map_congr_left (fun x _ => name_replaceNamed)

theorem updFold_cons {fg : List FortiOSFirewallAddrGrp}
    {gs : List FortiOSFirewallAddrGrp} {g : FortiOSFirewallAddrGrp}
    {vs : List FortiOSFirewallAddrGrp} :
    updFold fg gs (g :: vs) =
      updFold fg (if groupChanged fg g then gs.map (replaceNamed g) else gs) vs := by
  simp [updFold]

theorem names_updFold {fg : List FortiOSFirewallAddrGrp} :
    ∀ (vs gs : List FortiOSFirewallAddrGrp),
      (updFold fg gs vs).map (fun x => x.name) = gs.map (fun x => x.name) := by
  intro vs
  induction vs with
  | nil => intro gs; rfl
  | cons g rest ih =>
    intro gs
    rw [updFold_cons]
    split
    · rw [ih, names_map_replaceNamed]
    · exact ih gs

theorem findNamed_updFold_of_ne {fg : List FortiOSFirewallAddrGrp} {n : String} :
    ∀ (vs gs : List FortiOSFirewallAddrGrp), (∀ g ∈ vs, g.name ≠ n) →
      findNamed (updFold fg gs vs) n = findNamed gs n := by
  intro vs
  induction vs with
  | nil => intro gs _; rfl
  | cons g rest ih =>
    intro gs h
    rw [updFold_cons]
    have hgn : n ≠ g.name := fun hc => h g (List.mem_cons_self _ _) hc.symm
    have hrest : ∀ x ∈ rest, x.name ≠ n := fun x hx => h x (List.mem_cons_of_mem _ hx)
    split
    · rw [ih _ hrest, findNamed_map_replace_of_ne hgn]
    · exact ih gs hrest

theorem findNamed_updFold_mem {fg : List FortiOSFirewallAddrGrp}
    {g : FortiOSFirewallAddrGrp} :
    ∀ (vs gs : List FortiOSFirewallAddrGrp),
      (vs.map (fun x => x.name)).Nodup → g ∈ vs →
      findNamed (updFold fg gs vs) g.name =
        (if groupChanged fg g then (findNamed gs g.name).map (fun _ => g)
         else findNamed gs g.name) := by
  intro vs
  induction vs with
  | nil => intro gs _ hmem; exact absurd hmem (List.not_mem_nil g)
  | cons h rest ih =>
    intro gs hnd hmem
    have hnd1 : (h.name :: rest.map (fun x => x.name)).Nodup := by simpa using hnd
    have hnd2 := List.nodup_cons.mp hnd1
    rcases List.mem_cons.mp hmem with hgh | hgr
    · subst hgh
      rw [updFold_cons]
      have hrest : ∀ x ∈ rest, x.name ≠ g.name := by
        intro x hx hc
        exact hnd2.1 (hc ▸ List.mem_map_of_mem (fun y => y.name) hx)
      split
      · rw [findNamed_updFold_of_ne _ _ hrest, findNamed_map_replaceNamed]
        rcases h1 : findNamed gs g.name with _ | x
        · rfl
        · have hx : x.name = g.name := findNamed_some_name h1
          have : replaceNamed g x = g := by
            unfold replaceNamed
            rw [if_pos]
            simp [hx]
          simp [this]
      · exact findNamed_updFold_of_ne _ _ hrest
    · have hhg : h.name ≠ g.name := by
        intro hc
        exact hnd2.1 (hc ▸ List.mem_map_of_mem (fun y => y.name) hgr)
      rw [updFold_cons]
      split
      · rw [ih _ hnd2.2 hgr, findNamed_map_replace_of_ne (fun hc => hhg hc.symm)]
      · exact ih gs hnd2.2 hgr

theorem processGroups_state {α : Type} {nameOf : α → String}
    {fg : List FortiOSFirewallAddrGrp} :
    ∀ (vs : List FortiOSFirewallAddrGrp) (st : FirewallState α),
      ((processGroups nameOf fg st vs).1).groups = updFold fg st.groups vs := by
  intro vs
  induction vs with
  | nil => intro st; rfl
  | cons g rest ih =>
    intro st
    rw [processGroups, updFold_cons]
    rcases h1 : findNamed fg g.name with _ | ex
    · have hch : groupChanged fg g = false := by
        unfold groupChanged; rw [h1]
      rw [hch]
      simpa using ih st
    · dsimp only
      rcases h2 : ((diffAdded g ex).isEmpty && (diffRemoved g ex).isEmpty) with _ | _
      · have hch : groupChanged fg g = true := by
          unfold groupChanged
          rw [h1]
          dsimp only
          rw [h2]
          rfl
        rw [hch]
        rw [if_neg (by simp), if_pos rfl]
        dsimp only
        have hmap : (fun fg2 : FortiOSFirewallAddrGrp =>
            if (fg2.name == g.name) = true then g else fg2) = replaceNamed g := by
          funext fg2
          rw [replaceNamed]
        rw [ih _, processRemoved_groups]
        dsimp only
        rw [hmap]
      · have hch : groupChanged fg g = false := by
          unfold groupChanged
          rw [h1]
          dsimp only
          rw [h2]
          rfl
        rw [hch]
        rw [if_pos rfl, if_neg (by simp)]
        exact ih st

theorem processRemoved_addresses {α : Type} {nameOf : α → String} {n : String} :
    ∀ (removed : List String) (st : FirewallState α),
      n ∈ st.addresses.map nameOf →
      n ∉ (processRemoved nameOf st removed).2.1 →
      n ∈ ((processRemoved nameOf st removed).1).addresses.map nameOf := by
  intro removed
  induction removed with
  | nil => intro st h _; exact h
  | cons b rest ih =>
    intro st h hnd
    rw [processRemoved] at hnd ⊢
    split at hnd
    · rename_i hb
      rw [if_pos hb]
      exact ih st h hnd
    · rename_i hb
      rw [if_neg hb]
      dsimp only at hnd ⊢
      have hnb : n ≠ b := by
        intro hc
        exact hnd (by simp [hc])
      have hnd2 : n ∉ (processRemoved nameOf
          { st with addresses := st.addresses.filter (fun x => nameOf x != b) }
          rest).2.1 := by
        intro hc
        exact hnd (by simp [hc])
      refine ih _ ?_ hnd2
      rcases List.mem_map.mp h with ⟨x, hx, hxe⟩
      refine List.mem_map.mpr ⟨x, ?_, hxe⟩
      refine List.mem_filter.mpr ⟨hx, ?_⟩
      simp only [bne_iff_ne, ne_eq]
      exact fun hc => hnb (hxe ▸ hc ▸ rfl)

theorem processGroups_addresses {α : Type} {nameOf : α → String}
    {fg : List FortiOSFirewallAddrGrp} {n : String} :
    ∀ (vs : List FortiOSFirewallAddrGrp) (st : FirewallState α),
      n ∈ st.addresses.map nameOf →
      n ∉ (processGroups nameOf fg st vs).2.2.1 →
      n ∈ ((processGroups nameOf fg st vs).1).addresses.map nameOf := by
  intro vs
  induction vs with
  | nil => intro st h _; exact h
  | cons g rest ih =>
    intro st h hnd
    rw [processGroups] at hnd ⊢
    rcases h1 : findNamed fg g.name with _ | ex
    · rw [h1] at hnd
      dsimp only at hnd ⊢
      exact ih st h hnd
    · rw [h1] at hnd
      dsimp only at hnd ⊢
      split at hnd
      · rename_i hch
        rw [if_pos hch]
        exact ih st h hnd
      · rename_i hch
        rw [if_neg hch]
        dsimp only at hnd ⊢
        simp only [List.mem_append, not_or] at hnd
        refine ih _ ?_ hnd.2
        exact processRemoved_addresses _ _ h hnd.1

theorem diffAdded_self {g : FortiOSFirewallAddrGrp} : diffAdded g g = [] := by
  rw [diffAdded, List.filter_eq_nil_iff]
  intro m hm
  simp [List.elem_iff]
  exact hm

theorem diffRemoved_self {g : FortiOSFirewallAddrGrp} : diffRemoved g g = [] := by
  rw [diffRemoved, List.filter_eq_nil_iff]
  intro m hm
  simp [List.elem_iff]
  exact hm

theorem findNamed_of_nodup_mem {g : FortiOSFirewallAddrGrp} :
    ∀ l : List FortiOSFirewallAddrGrp,
      (l.map (fun x => x.name)).Nodup → g ∈ l → findNamed l g.name = some g := by
  intro l
  induction l with
  | nil => intro _ hmem; exact absurd hmem (List.not_mem_nil g)
  | cons x rest ih =>
    intro hnd hmem
    have hnd1 : (x.name :: rest.map (fun y => y.name)).Nodup := by simpa using hnd
    have hnd2 := List.nodup_cons.mp hnd1
    rcases List.mem_cons.mp hmem with hgx | hgr
    · subst hgx
      simp [findNamed, List.find?_cons]
    · have hne : x.name ≠ g.name := by
        intro hc
        exact hnd2.1 (hc ▸ List.mem_map_of_mem (fun y => y.name) hgr)
      rw [findNamed, List.find?_cons]
      rcases hb : (x.name == g.name) with _ | _
      · exact ih hnd2.2 hgr
      · exact absurd (by simpa using hb) hne

theorem processGroups_all_unchanged {α : Type} {nameOf : α → String}
    {fg : List FortiOSFirewallAddrGrp} :
    ∀ (vs : List FortiOSFirewallAddrGrp) (st : FirewallState α),
      (∀ g ∈ vs, groupChanged fg g = false) →
      processGroups nameOf fg st vs = (st, [], [], []) := by
  intro vs
  induction vs with
  | nil => intro st _; rfl
  | cons g rest ih =>
    intro st h
    have hg := h g (List.mem_cons_self _ _)
    have hrest : ∀ x ∈ rest, groupChanged fg x = false :=
      fun x hx => h x (List.mem_cons_of_mem _ hx)
    rw [processGroups]
    rcases h1 : findNamed fg g.name with _ | ex
    · exact ih st hrest
    · unfold groupChanged at hg
      rw [h1] at hg
      dsimp only at hg
      simp only [Bool.not_eq_false'] at hg
      dsimp only
      rw [if_pos hg]
      exact ih st hrest

theorem hashIpAddress_length {s : String} : (hashIpAddress s).length = 32 := by
  unfold hashIpAddress
  show (String.mk _).length = 32
  simp [String.length]

theorem digits_foldl_shift : ∀ (l : List Char) (a : Nat),
    l.foldl (fun n c => n * 10 + (c.toNat - 48)) a =
      a * 10 ^ l.length + l.foldl (fun n c => n * 10 + (c.toNat - 48)) 0 := by
  intro l
  induction l with
  | nil => intro a; simp
  | cons c cs ih =>
    intro a
    simp only [List.foldl_cons, List.length_cons]
    rw [ih (a * 10 + (c.toNat - 48)), ih (0 * 10 + (c.toNat - 48))]
    ring

theorem digitsToNat_lower {c : Char} {rest : List Char}
    (hd : isDigitChar c = true) (hc : c ≠ '0') :
    10 ^ rest.length ≤ digitsToNat (c :: rest) := by
  unfold digitsToNat
  rw [List.foldl_cons, digits_foldl_shift rest (0 * 10 + (c.toNat - 48))]
  have h48 : 48 ≤ c.toNat := by
    have hd2 := hd
    unfold isDigitChar at hd2
    simp only [Bool.and_eq_true, decide_eq_true_eq] at hd2
    exact hd2.1
  have hne : c.toNat ≠ 48 := by
    intro hc2
    exact hc (Char.ext (UInt32.toNat.inj (by simpa using hc2)))
  calc 10 ^ rest.length = 1 * 10 ^ rest.length := by ring
  _ ≤ (0 * 10 + (c.toNat - 48)) * 10 ^ rest.length := by
      apply Nat.mul_le_mul_right
      omega
  _ ≤ _ := Nat.le_add_right _ _

theorem digits_value_length {c : Char} {rest : List Char} {bound k : Nat}
    (hk : 1 ≤ k) (hd : isDigitChar c = true)
    (hle : digitsToNat (c :: rest) ≤ bound)
    (hc : rest.isEmpty = true ∨ c ≠ '0') (hb : bound < 10 ^ k) :
    (c :: rest).length ≤ k := by
  rcases hc with hc | hc
  · rw [List.isEmpty_iff] at hc
    simp only [hc, List.length_cons, List.length_nil]
    omega
  · by_contra hlen
    have h3 : k ≤ rest.length := by
      simp only [List.length_cons] at hlen
      omega
    have hlow := @digitsToNat_lower c rest hd hc
    have hpow : 10 ^ k ≤ 10 ^ rest.length := Nat.pow_le_pow_right (by omega) h3
    omega

theorem isValidIPv4Octet_length {s : List Char}
    (h : isValidIPv4Octet s = true) : s.length ≤ 3 := by
  unfold isValidIPv4Octet at h
  rcases s with _ | ⟨c, rest⟩
  · exact absurd h (by simp)
  · simp only [Bool.and_eq_true, Bool.or_eq_true, List.all_eq_true,
      decide_eq_true_eq, bne_iff_ne, ne_eq] at h
    refine digits_value_length (by omega) (h.1.1 c (by simp)) h.1.2 ?_ (by norm_num)
    rcases h.2 with h2 | h2
    · left; simpa using h2
    · right; exact h2

theorem isValidPrefixLen_length {s : List Char} {bound k : Nat}
    (h : isValidPrefixLen bound s = true) (hk : 1 ≤ k) (hb : bound < 10 ^ k) :
    s.length ≤ k := by
  unfold isValidPrefixLen at h
  rcases s with _ | ⟨c, rest⟩
  · exact absurd h (by simp)
  · simp only [Bool.and_eq_true, Bool.or_eq_true, List.all_eq_true,
      decide_eq_true_eq, bne_iff_ne, ne_eq] at h
    refine digits_value_length hk (h.1.1 c (by simp)) h.1.2 ?_ hb
    rcases h.2 with h2 | h2
    · left; simpa using h2
    · right; exact h2

theorem splitOnChar_ne_nil {sep : Char} : ∀ l : List Char, splitOnChar sep l ≠ [] := by
  intro l
  induction l with
  | nil => simp [splitOnChar]
  | cons c rest ih =>
    rw [splitOnChar]
    split
    · simp
    · split
      · simp
      · simp

theorem splitOnChar_length_sum {sep : Char} : ∀ l : List Char,
    ((splitOnChar sep l).map List.length).sum + (splitOnChar sep l).length =
      l.length + 1 := by
  intro l
  induction l with
  | nil => simp [splitOnChar]
  | cons c rest ih =>
    rw [splitOnChar]
    split
    · simp only [List.map_cons, List.length_cons, List.sum_cons, List.length_nil]
      omega
    · rcases hr : splitOnChar sep rest with _ | ⟨h, t⟩
      · exact absurd hr (splitOnChar_ne_nil rest)
      · rw [hr] at ih
        simp only [List.map_cons, List.sum_cons, List.length_cons] at ih ⊢
        omega

theorem isValidIPv4String_length {ip : String}
    (h : isValidIPv4String ip = true) : ip.length ≤ 15 := by
  unfold isValidIPv4String at h
  rcases hs : splitOnChar '.' ip.data with _ | ⟨a, r1⟩
  · exact absurd hs (splitOnChar_ne_nil ip.data)
  · rw [hs] at h
    rcases r1 with _ | ⟨b, r2⟩
    · exact absurd h (by simp)
    · rcases r2 with _ | ⟨c, r3⟩
      · exact absurd h (by simp)
      · rcases r3 with _ | ⟨d, r4⟩
        · exact absurd h (by simp)
        · rcases r4 with _ | ⟨e, r5⟩
          · simp only [Bool.and_eq_true] at h
            have hsum := @splitOnChar_length_sum '.' ip.data
            rw [hs] at hsum
            simp only [List.map_cons, List.map_nil, List.sum_cons, List.sum_nil,
              List.length_cons, List.length_nil] at hsum
            have ha := isValidIPv4Octet_length h.1.1.1
            have hb := isValidIPv4Octet_length h.1.1.2
            have hc := isValidIPv4Octet_length h.1.2
            have hd := isValidIPv4Octet_length h.2
            have : ip.length = ip.data.length := rfl
            omega
          · exact absurd h (by simp)

theorem isValidIPv4Cidr_length {ip : String}
    (h : isValidIPv4Cidr ip = true) : ip.length ≤ 18 := by
  unfold isValidIPv4Cidr at h
  rcases hs : splitOnChar '/' ip.data with _ | ⟨a, r1⟩
  · exact absurd hs (splitOnChar_ne_nil ip.data)
  · rw [hs] at h
    rcases r1 with _ | ⟨b, r2⟩
    · exact absurd h (by simp)
    · rcases r2 with _ | ⟨c, r3⟩
      · simp only [Bool.and_eq_true] at h
        have hsum := @splitOnChar_length_sum '/' ip.data
        rw [hs] at hsum
        simp only [List.map_cons, List.map_nil, List.sum_cons, List.sum_nil,
          List.length_cons, List.length_nil] at hsum
        have ha : a.length ≤ 15 := by
          have := isValidIPv4String_length h.1
          simpa [String.length] using this
        have hbl : b.length ≤ 2 := isValidPrefixLen_length h.2 (by omega) (by norm_num)
        have : ip.length = ip.data.length := rfl
        omega
      · exact absurd h (by simp)

theorem isValidIPv4Range_length {ip : String}
    (h : isValidIPv4Range ip = true) : ip.length ≤ 31 := by
  unfold isValidIPv4Range at h
  rcases hs : splitOnChar '-' ip.data with _ | ⟨a, r1⟩
  · exact absurd hs (splitOnChar_ne_nil ip.data)
  · rw [hs] at h
    rcases r1 with _ | ⟨b, r2⟩
    · exact absurd h (by simp)
    · rcases r2 with _ | ⟨c, r3⟩
      · simp only [Bool.and_eq_true] at h
        have hsum := @splitOnChar_length_sum '-' ip.data
        rw [hs] at hsum
        simp only [List.map_cons, List.map_nil, List.sum_cons, List.sum_nil,
          List.length_cons, List.length_nil] at hsum
        have ha : a.length ≤ 15 := by
          have := isValidIPv4String_length h.1
          simpa [String.length] using this
        have hbl : b.length ≤ 15 := by
          have := isValidIPv4String_length h.2
          simpa [String.length] using this
        have : ip.length = ip.data.length := rfl
        omega
      · exact absurd h (by simp)

/-- Generic second-pass emptiness: with unique desired group names and no
desired address deleted by the first pass, a second identical pass over
the state the first pass left behind issues nothing. -/
theorem deploy_idempotent {α : Type} (nameOf : α → String)
    (dg : JsRecord FortiOSFirewallAddrGrp) (da : JsRecord α) (fw : FirewallState α)
    (hnodup : ((jsValues dg).map (fun g => g.name)).Nodup)
    (hdel : ∀ n ∈ (deploy nameOf dg da fw).1.deletedAddresses,
      n ∉ (jsValues da).map nameOf) :
    (deploy nameOf dg da (deploy nameOf dg da fw).2).1 = DeployPlan.empty := by
  have hdel1 : ∀ n ∈ (processGroups nameOf fw.groups
      ⟨fw.addresses ++ (jsValues da).filter
          (fun a => !(fw.addresses.any (fun x => nameOf x == nameOf a))),
        fw.groups ++ (jsValues dg).filter
          (fun g => !(fw.groups.any (fun x => x.name == g.name)))⟩
      (jsValues dg)).2.2.1, n ∉ (jsValues da).map nameOf := hdel
  set st1 := (deploy nameOf dg da fw).2 with hs
  have hst1 : st1 = (processGroups nameOf fw.groups
      ⟨fw.addresses ++ (jsValues da).filter
          (fun a => !(fw.addresses.any (fun x => nameOf x == nameOf a))),
        fw.groups ++ (jsValues dg).filter
          (fun g => !(fw.groups.any (fun x => x.name == g.name)))⟩
      (jsValues dg)).1 := hs
  have hA : ∀ a ∈ jsValues da,
      nameOf a ∈ st1.addresses.map nameOf := by
    intro a ha
    rw [hst1]
    have h0 : nameOf a ∈ (fw.addresses ++ (jsValues da).filter
        (fun x => !(fw.addresses.any (fun y => nameOf y == nameOf x)))).map nameOf := by
      rw [List.map_append, List.mem_append]
      rcases hany : fw.addresses.any (fun x => nameOf x == nameOf a) with _ | _
      · right
        refine List.mem_map_of_mem nameOf ?_
        exact List.mem_filter.mpr ⟨ha, by simp [hany]⟩
      · left
        rcases List.any_eq_true.mp hany with ⟨x, hx, hxe⟩
        refine List.mem_map.mpr ⟨x, hx, ?_⟩
        simpa using hxe
    refine processGroups_addresses _ _ h0 ?_
    intro hc
    exact hdel1 _ hc (List.mem_map_of_mem nameOf ha)
  have hB : ∀ g ∈ jsValues dg,
      g.name ∈ st1.groups.map (fun x => x.name) := by
    intro g hg
    rw [hst1, processGroups_state, names_updFold]
    dsimp only
    rw [List.map_append, List.mem_append]
    rcases hany : fw.groups.any (fun x => x.name == g.name) with _ | _
    · right
      exact List.mem_map.mpr ⟨g, List.mem_filter.mpr ⟨hg, by simp [hany]⟩, rfl⟩
    · left
      rcases List.any_eq_true.mp hany with ⟨x, hx, hxe⟩
      refine List.mem_map.mpr ⟨x, hx, ?_⟩
      simpa using hxe
  have hC : ∀ g ∈ jsValues dg,
      groupChanged st1.groups g = false := by
    intro g hg
    rw [hst1, processGroups_state]
    have hfind := @findNamed_updFold_mem fw.groups g (jsValues dg)
      (fw.groups ++ (jsValues dg).filter
        (fun x => !(fw.groups.any (fun y => y.name == x.name))))
      hnodup hg
    rcases hf : findNamed fw.groups g.name with _ | ex
    · have hch1 : groupChanged fw.groups g = false := by
        unfold groupChanged; rw [hf]
      rw [hch1] at hfind
      simp only [Bool.false_eq_true, if_false] at hfind
      have hmiss : g ∈ (jsValues dg).filter
          (fun x => !(fw.groups.any (fun y => y.name == x.name))) := by
        refine List.mem_filter.mpr ⟨hg, ?_⟩
        have : fw.groups.any (fun y => y.name == g.name) = false := by
          rw [List.any_eq_false]
          intro x hx
          have := List.find?_eq_none.mp hf x hx
          simpa using this
        simp [this]
      have hnd2 : (((jsValues dg).filter
          (fun x => !(fw.groups.any (fun y => y.name == x.name)))).map
            (fun x => x.name)).Nodup := by
        refine List.Nodup.sublist ?_ hnodup
        exact List.Sublist.map _ (List.filter_sublist _)
      have hfm : findNamed ((jsValues dg).filter
          (fun x => !(fw.groups.any (fun y => y.name == x.name)))) g.name = some g :=
        findNamed_of_nodup_mem _ hnd2 hmiss
      have hfind2 : findNamed (fw.groups ++ (jsValues dg).filter
          (fun x => !(fw.groups.any (fun y => y.name == x.name)))) g.name = some g := by
        rw [findNamed, List.find?_append]
        rw [findNamed] at hf hfm
        rw [hf, hfm]
        rfl
      rw [hfind2] at hfind
      unfold groupChanged
      rw [hfind]
      simp [diffAdded_self, diffRemoved_self]
    · have hfind0 : findNamed (fw.groups ++ (jsValues dg).filter
          (fun x => !(fw.groups.any (fun y => y.name == x.name)))) g.name = some ex := by
        rw [findNamed, List.find?_append]
        rw [findNamed] at hf
        rw [hf]
        rfl
      rcases hch1 : groupChanged fw.groups g with _ | _
      · rw [hch1] at hfind
        simp only [Bool.false_eq_true, if_false] at hfind
        rw [hfind0] at hfind
        unfold groupChanged at hch1 ⊢
        rw [hf] at hch1
        rw [hfind]
        exact hch1
      · rw [hch1] at hfind
        rw [if_pos rfl] at hfind
        rw [hfind0] at hfind
        simp only [Option.map_some'] at hfind
        unfold groupChanged
        rw [hfind]
        simp [diffAdded_self, diffRemoved_self]
  have hma2 : (jsValues da).filter
      (fun a => !(st1.addresses.any
        (fun x => nameOf x == nameOf a))) = [] := by
    rw [List.filter_eq_nil_iff]
    intro a ha
    rcases List.mem_map.mp (hA a ha) with ⟨x, hx, hxe⟩
    simp only [Bool.not_eq_true', Bool.not_eq_true, Bool.not_eq_false]
    rw [List.any_eq_true]
    exact ⟨x, hx, by simp [hxe]⟩
  have hmg2 : (jsValues dg).filter
      (fun g => !(st1.groups.any
        (fun x => x.name == g.name))) = [] := by
    rw [List.filter_eq_nil_iff]
    intro g hg
    rcases List.mem_map.mp (hB g hg) with ⟨x, hx, hxe⟩
    simp only [Bool.not_eq_true', Bool.not_eq_true, Bool.not_eq_false]
    rw [List.any_eq_true]
    exact ⟨x, hx, by simp [hxe]⟩
  show (deploy nameOf dg da st1).1 = DeployPlan.empty
  unfold deploy
  dsimp only
  rw [hma2, hmg2]
  rw [processGroups_all_unchanged (jsValues dg) _ hC]
  simp [DeployPlan.empty]

/-! ## Claim theorems -/

/-- C10: `getVMTagsGroupsAndMembers` creates the v4 and v6 group records
per configured (manager, scope, vm-tag) before any VM filtering — with no
matching running VM the fragment still holds the two groups with empty
member lists — whereas `getGroupTagsGroupsAndMembers` creates its group
records only inside the tagged-group loop: with no tagged group it
returns the empty fragment, and with at least one tagged group (and a
successful pass) both records are present. -/
theorem vm_groups_eager_group_groups_lazy
    (m scope t : String) (vms : List VMwareNSXVirtualMachine)
    (groups : List VMwareNSXGroup) (isGlobal : Bool) (fr : Fragment) :
    (filterVMsByTag vms scope t = [] →
      getVMTagsGroupsAndMembers m scope [t] (some vms) = .ok
        { fortiOSIPv4Groups := [("grp_" ++ m ++ "_" ++ scope ++ "_" ++ t,
            { name := "grp_" ++ m ++ "_" ++ scope ++ "_" ++ t,
              comment := "Managed by NAM", color := 3, member := [] })],
          fortiOSIPv4Addresses := [],
          fortiOSIPv6Groups := [("grp6_" ++ m ++ "_" ++ scope ++ "_" ++ t,
            { name := "grp6_" ++ m ++ "_" ++ scope ++ "_" ++ t,
              comment := "Managed by NAM", color := 3, member := [] })],
          fortiOSIPv6Addresses := [] }) ∧
    (filterGroupsByTag groups scope t = [] →
      getGroupTagsGroupsAndMembers m isGlobal scope [t] (some groups) =
        .ok emptyFragment) ∧
    (getGroupTagsGroupsAndMembers m isGlobal scope [t] (some groups) = .ok fr →
      filterGroupsByTag groups scope t ≠ [] →
      (jsGet fr.fortiOSIPv4Groups ("grp_" ++ m ++ "_" ++ scope ++ "_" ++ t)).isSome = true ∧
      (jsGet fr.fortiOSIPv6Groups ("grp6_" ++ m ++ "_" ++ scope ++ "_" ++ t)).isSome = true) := by
  refine ⟨?_, ?_, ?_⟩
  · intro h
    rw [getVMTagsGroupsAndMembers, getVMTagsAux, h]
    simp [processVMs, getVMTagsAux, emptyFragment, ensureGroup, jsGet]
  · intro h
    rw [getGroupTagsGroupsAndMembers, getGroupTagsAux, h]
    simp [processNsxGroups, getGroupTagsAux]
  · intro h hne
    rw [getGroupTagsGroupsAndMembers, getGroupTagsAux] at h
    rcases hf : filterGroupsByTag groups scope t with _ | ⟨g, gs⟩
    · exact absurd hf hne
    · rw [hf] at h
      rw [processNsxGroups] at h
      rcases h1 : processNsxGroup m isGlobal
          ("grp_" ++ m ++ "_" ++ scope ++ "_" ++ t)
          ("grp6_" ++ m ++ "_" ++ scope ++ "_" ++ t) emptyFragment g with e | f1
      · rw [h1] at h; exact absurd h (by simp)
      · rw [h1] at h
        dsimp only at h
        rcases h2 : processNsxGroups m isGlobal
            ("grp_" ++ m ++ "_" ++ scope ++ "_" ++ t)
            ("grp6_" ++ m ++ "_" ++ scope ++ "_" ++ t) f1 gs with e | f2
        · rw [h2] at h; exact absurd h (by simp)
        · rw [h2] at h
          dsimp only at h
          rw [getGroupTagsAux, Except.ok.injEq] at h
          subst h
          exact ⟨(processNsxGroups_preserves gs f1 f2 h2).1
              (processNsxGroup_ok_groups h1).1,
            (processNsxGroups_preserves gs f1 f2 h2).2
              (processNsxGroup_ok_groups h1).2⟩

/-- C10 witness: a concrete run of each of the three parts. -/
theorem vm_groups_eager_group_groups_lazy_witness :
    getVMTagsGroupsAndMembers "m" "s" ["t"] (some []) = .ok
      { fortiOSIPv4Groups := [("grp_m_s_t",
          { name := "grp_m_s_t", comment := "Managed by NAM", color := 3, member := [] })],
        fortiOSIPv4Addresses := [],
        fortiOSIPv6Groups := [("grp6_m_s_t",
          { name := "grp6_m_s_t", comment := "Managed by NAM", color := 3, member := [] })],
        fortiOSIPv6Addresses := [] } ∧
    getGroupTagsGroupsAndMembers "m" false "s" ["t"] (some []) = .ok emptyFragment ∧
    (jsGet taggedNsxGroupFragment.fortiOSIPv4Groups "grp_m_s_t").isSome = true ∧
    (jsGet taggedNsxGroupFragment.fortiOSIPv6Groups "grp6_m_s_t").isSome = true := by
  refine ⟨?_, ?_, ?_⟩
  · have h := (vm_groups_eager_group_groups_lazy "m" "s" "t" [] [] false
      emptyFragment).1 (by decide)
    simpa using h
  · have h := (vm_groups_eager_group_groups_lazy "m" "s" "t" [] [] false
      emptyFragment).2.1 (by decide)
    simpa using h
  · have h := (vm_groups_eager_group_groups_lazy "m" "s" "t" [] [taggedNsxGroup] false
      taggedNsxGroupFragment).2.2 rfl (by decide)
    simpa using h

/-- C8: a failed sub-query is logged but is not downgraded to an empty
result: the `catch`-handler returns `undefined`, the extractor then
dereferences it and the `TypeError` escapes, so no fragment is returned —
shown for the tagged-VM search, the tagged-group search, and a local
group-member sub-query. -/
theorem transport_failure_fatal_to_extractor :
    (getVMTagsGroupsAndMembers "m" "s" ["t"] none).toOption = none ∧
    (getGroupTagsGroupsAndMembers "m" false "s" ["t"] none).toOption = none ∧
    (getGroupTagsGroupsAndMembers "m" false "s" ["t"]
      (some [{ display_name := "ng", tags := [⟨"s", "t"⟩],
               ipMembersResult := none }])).toOption = none := by
  decide

/-- C5: for the IPv6 group path with a 70-character owner name the
canonical identifier exceeds 79 characters and the produced record
carries a hashed identifier within the bound and distinct from the
canonical form — but its comment is empty, not the hashed marker, because
the source computes `isHashed` from the length of the already-hashed
name; and for the IPv4 group path with a 62-character owner name the
hashed identifier itself still exceeds 79 characters. -/
theorem hashed_record_not_marked_or_overlong :
    79 < ("nsx6_" ++ "m" ++ "_" ++ longOwnerName ++ "_" ++ "2001:db8::/32").length ∧
    (groupIpv6AddressName "m" longOwnerName "2001:db8::/32").1.length ≤ 79 ∧
    (groupIpv6AddressName "m" longOwnerName "2001:db8::/32").1 ≠
      "nsx6_" ++ "m" ++ "_" ++ longOwnerName ++ "_" ++ "2001:db8::/32" ∧
    (createIPv6Address "2001:db8::/32"
        (groupIpv6AddressName "m" longOwnerName "2001:db8::/32").1
        (groupIpv6AddressName "m" longOwnerName "2001:db8::/32").2).map
      (fun a => a.comment) = some "" ∧
    79 < ("nsx_" ++ "m" ++ "_" ++ longOwnerName62 ++ "_" ++ "10.0.0.1" ++ "/32").length ∧
    79 < (groupIpv4AddressName "m" longOwnerName62 "10.0.0.1").1.length := by
  decide

/-- C3 counterexample: a VM whose display name has 80 characters yields
an 84-character address identifier — no hashing is applied on the VM
path, refuting the 79-character bound for every extractor identifier. -/
theorem vm_identifier_exceeds_79 :
    ((getVMTagsGroupsAndMembers "m" "s" ["t"]
        (some [{ display_name := longVmDisplayName, tags := [⟨"s", "t"⟩],
                 vifs := [⟨[["10.0.0.1"]]⟩] }])).toOption.map
      (fun f => f.fortiOSIPv4Addresses.map (fun p => p.1.length))) = some [84] ∧
    79 < 84 := by
  decide

/-- C3 amended: only the group-path naming is length-aware.  A canonical
identifier within 79 characters is used as-is; past 79 characters the
IPv4 name swaps the literal for its hash but keeps the manager/owner
prefix, so for any valid IPv4 literal it still exceeds 79 characters,
while the IPv6 name keeps only the manager prefix and stays within 79
characters whenever the manager name has at most 41 characters. -/
theorem group_path_identifier_bounds :
    (∀ m d ip : String,
      ("nsx_" ++ m ++ "_" ++ d ++ "_" ++ ip ++
          (if isValidIPv4String ip then "/32" else "")).length ≤ 79 →
      (groupIpv4AddressName m d ip).1 =
        "nsx_" ++ m ++ "_" ++ d ++ "_" ++ ip ++
          (if isValidIPv4String ip then "/32" else "") ∧
      (groupIpv4AddressName m d ip).1.length ≤ 79) ∧
    (∀ m d ip : String,
      (isValidIPv4String ip = true ∨ isValidIPv4Cidr ip = true ∨
        isValidIPv4Range ip = true) →
      79 < ("nsx_" ++ m ++ "_" ++ d ++ "_" ++ ip ++
          (if isValidIPv4String ip then "/32" else "")).length →
      79 < (groupIpv4AddressName m d ip).1.length) ∧
    (∀ m d ip : String, m.length ≤ 41 →
      (groupIpv6AddressName m d ip).1.length ≤ 79) := by
  refine ⟨?_, ?_, ?_⟩
  · intro m d ip hle
    unfold groupIpv4AddressName
    dsimp only
    rw [if_neg (by omega)]
    exact ⟨rfl, hle⟩
  · intro m d ip hval hgt
    unfold groupIpv4AddressName
    dsimp only
    rw [if_pos hgt]
    have hh := @hashIpAddress_length ip
    simp only [String.length_append] at hgt ⊢
    rw [hh]
    have hnsx : ("nsx_" : String).length = 4 := rfl
    have hund : ("_" : String).length = 1 := rfl
    by_cases hplain : isValidIPv4String ip = true
    · have hip := isValidIPv4String_length hplain
      rw [if_pos hplain] at hgt
      have hpad : ("/32" : String).length = 3 := rfl
      omega
    · rw [if_neg hplain] at hgt
      have hpad : ("" : String).length = 0 := rfl
      have hip : ip.length ≤ 31 := by
        rcases hval with hv | hv | hv
        · exact absurd hv hplain
        · have := isValidIPv4Cidr_length hv
          omega
        · exact isValidIPv4Range_length hv
      omega
  · intro m d ip hm
    unfold groupIpv6AddressName
    dsimp only
    split
    · have hh := @hashIpAddress_length ip
      simp only [String.length_append]
      rw [hh]
      have hnsx : ("nsx6_" : String).length = 5 := rfl
      have hund : ("_" : String).length = 1 := rfl
      omega
    · rename_i hgt
      omega

/-- C3 amended witness: a short canonical IPv4 name kept as-is, a long
IPv4 name whose hashed replacement still exceeds 79 characters, and a
long IPv6 name whose hashed replacement is within the bound. -/
theorem group_path_identifier_bounds_witness :
    ((groupIpv4AddressName "m" "grp" "10.0.0.1").1 = "nsx_m_grp_10.0.0.1/32" ∧
      (groupIpv4AddressName "m" "grp" "10.0.0.1").1.length ≤ 79) ∧
    79 < (groupIpv4AddressName "m" longOwnerName62 "10.0.0.1").1.length ∧
    (groupIpv6AddressName "m" longOwnerName "2001:db8::/32").1.length ≤ 79 := by
  refine ⟨?_, ?_, ?_⟩
  · have h := group_path_identifier_bounds.1 "m" "grp" "10.0.0.1" (by decide)
    exact ⟨h.1.trans (by decide), h.2⟩
  · exact group_path_identifier_bounds.2.1 "m" longOwnerName62 "10.0.0.1"
      (Or.inl (by decide)) (by decide)
  · exact group_path_identifier_bounds.2.2 "m" longOwnerName "2001:db8::/32"
      (by decide)

/-- C9 counterexample: the link-local filter is not total on unrecognized
literals — `ipaddr.parse` throws on `banana` and
`removeLinkLocalAddresses` rethrows, so the VM-path pipeline errors
instead of skipping the literal. -/
theorem link_local_filter_throws_on_unrecognized :
    (removeLinkLocalAddresses ["banana", "10.0.0.5"]).toOption = none := by
  decide

/-- C9 amended: the address builders return no result (never an error) on
a literal that is not a recognized host, CIDR or range, and the
group-path classification step silently skips such a literal, leaving the
fragment unchanged; only `removeLinkLocalAddresses` (the VM path) throws
on them. -/
theorem unrecognized_literal_skipped_amended (ip n : String) (h : Bool) :
    (isValidIPv4String ip = false → isValidIPv4Cidr ip = false →
      isValidIPv4Range ip = false → createIPv4Address ip n h = none) ∧
    (isValidIPv6Cidr ip = false → isValidIPv6Range ip = false →
      createIPv6Address ip n h = none) ∧
    (∀ (m g4 g6 d : String) (vifs : List String) (frag : Fragment),
      isValidIPv4String (groupNormalizeIp ip) = false →
      isValidIPv4Cidr (groupNormalizeIp ip) = false →
      isValidIPv4Range (groupNormalizeIp ip) = false →
      isValidIPv6String (groupNormalizeIp ip) = false →
      isValidIPv6Cidr (groupNormalizeIp ip) = false →
      isValidIPv6Range (groupNormalizeIp ip) = false →
      processGroupIp m g4 g6 d vifs frag ip = frag) := by
  refine ⟨?_, ?_, ?_⟩
  · intro h1 h2 h3
    unfold createIPv4Address
    rw [h1, h2, h3]
    simp
  · intro h1 h2
    unfold createIPv6Address
    rw [h1, h2]
    simp
  · intro m g4 g6 d vifs frag h1 h2 h3 h4 h5 h6
    unfold processGroupIp
    dsimp only
    rw [h1, h2, h3, h4, h5, h6]
    simp

/-- C9 witness: the amended claim applied at the literal `banana`. -/
theorem unrecognized_literal_skipped_witness :
    createIPv4Address "banana" "x" false = none ∧
    createIPv6Address "banana" "x" false = none ∧
    processGroupIp "m" "a" "b" "d" [] emptyFragment "banana" = emptyFragment := by
  refine ⟨?_, ?_, ?_⟩
  · exact (unrecognized_literal_skipped_amended "banana" "x" false).1
      (by decide) (by decide) (by decide)
  · exact (unrecognized_literal_skipped_amended "banana" "x" false).2.1
      (by decide) (by decide)
  · exact (unrecognized_literal_skipped_amended "banana" "x" false).2.2
      "m" "a" "b" "d" [] emptyFragment
      (by decide) (by decide) (by decide) (by decide) (by decide) (by decide)

/-- C4 counterexample: the same (manager, owner, literal) triple gets a
different identifier depending on the owner's other resolved IPs — with
`10.0.0.2` as the only address of `vm` it is stored as `nsx_vm`, but once
`10.0.0.1` also resolves (and sorts first) the very same literal is
stored as `nsx_vm_10.0.0.2`. -/
theorem same_literal_different_identifier :
    ((getVMTagsGroupsAndMembers "m" "s" ["t"] (some [vmOneIp])).toOption.map
      (fun f => f.fortiOSIPv4Addresses.map (fun p => (p.1, p.2.subnet)))) =
      some [("nsx_vm", "10.0.0.2 255.255.255.255")] ∧
    ((getVMTagsGroupsAndMembers "m" "s" ["t"] (some [vmTwoIps])).toOption.map
      (fun f => f.fortiOSIPv4Addresses.map (fun p => (p.1, p.2.subnet)))) =
      some [("nsx_vm", "10.0.0.1 255.255.255.255"),
            ("nsx_vm_10.0.0.2", "10.0.0.2 255.255.255.255")] := by
  decide

/-- C4 amended: the identifiers are independent of the order in which the
inventory returns a VM's interfaces and addresses — the resolved IP list
is deduplicated and sorted before the index-based naming — though not of
which other IPs resolve for the same owner. -/
theorem identifier_stable_under_inventory_order
    (vifs1 vifs2 : List VMwareNSXVirtualNetworkInterface)
    (h : ∀ x, x ∈ (vifs1.flatMap (fun v => v.ip_address_info)).flatMap id ↔
          x ∈ (vifs2.flatMap (fun v => v.ip_address_info)).flatMap id) :
    extractIpAddresses vifs1 = extractIpAddresses vifs2 := by
  unfold extractIpAddresses
  apply jsSortStrings_eq_of_perm
  refine (List.perm_ext_iff_of_nodup nodup_dedupFirst nodup_dedupFirst).mpr ?_
  intro a
  rw [mem_dedupFirst, mem_dedupFirst]
  exact h a

/-- C4 witness: two interface lists returning the same addresses in a
different order and split yield the same resolved list. -/
theorem identifier_stable_under_inventory_order_witness :
    extractIpAddresses [⟨[["10.0.0.2", "10.0.0.1"]]⟩] =
      extractIpAddresses [⟨[["10.0.0.1", "10.0.0.2"]]⟩] := by
  apply identifier_stable_under_inventory_order
  intro x
  simp only [List.flatMap_cons, List.flatMap_nil, List.append_nil, id_def,
    List.mem_cons, List.not_mem_nil, or_false]
  exact Or.comm

/-- C6 counterexample: two VM-derived fragments are folded with
`Object.assign`, so the second one overwrites the record already stored
under `nsx_vm` — the first writer does not win. -/
theorem vm_derived_merge_overwrites :
    jsGet (workAggregate
        [(.vmDerived, vmFragmentOne), (.vmDerived, vmFragmentTwo)]).fortiOSIPv4Addresses
      "nsx_vm" ≠ some addrA ∧
    jsGet (workAggregate [(.vmDerived, vmFragmentOne)]).fortiOSIPv4Addresses
      "nsx_vm" = some addrA := by
  decide

/-- C6 amended: only the group-derived fragments are folded with
`mergeAddressObjects`, which never changes an address record already
stored under an existing name; VM-derived fragments are folded with
`Object.assign`, where the later fragment overwrites. -/
theorem group_derived_merge_preserves (acc f : Fragment) (k : String) :
    (∀ v, jsGet acc.fortiOSIPv4Addresses k = some v →
      jsGet (foldFragment acc .groupDerived f).fortiOSIPv4Addresses k = some v) ∧
    (∀ v, jsGet acc.fortiOSIPv6Addresses k = some v →
      jsGet (foldFragment acc .groupDerived f).fortiOSIPv6Addresses k = some v) := by
  constructor
  · intro v hv
    exact jsGet_mergeAddressObjects _ _ _ _ hv
  · intro v hv
    exact jsGet_mergeAddressObjects _ _ _ _ hv

/-- C6 witness: merging the same two colliding fragments through the
group-derived path preserves the first record. -/
theorem group_derived_merge_preserves_witness :
    jsGet (foldFragment vmFragmentOne .groupDerived vmFragmentTwo).fortiOSIPv4Addresses
      "nsx_vm" = some addrA :=
  (group_derived_merge_preserves vmFragmentOne vmFragmentTwo "nsx_vm").1 addrA (by decide)

theorem processRemoved_no_delete {α : Type} {nameOf : α → String}
    {g' : FortiOSFirewallAddrGrp} {a : String} (ha : a ∈ g'.member) :
    ∀ (removed : List String) (st : FirewallState α), g' ∈ st.groups →
      a ∉ (processRemoved nameOf st removed).2.1 := by
  intro removed
  induction removed with
  | nil => intro st _; simp [processRemoved]
  | cons b rest ih =>
    intro st hg
    rw [processRemoved]
    split
    · exact ih st hg
    · rename_i hb
      intro hmem
      rcases List.mem_cons.mp hmem with hab | hmem2
      · exact hb (hab ▸ addressInUse_of_mem hg ha)
      · exact ih { st with addresses := st.addresses.filter (fun x => nameOf x != b) }
          hg hmem2

theorem processGroups_no_delete {α : Type} {nameOf : α → String}
    {fg : List FortiOSFirewallAddrGrp} {g' : FortiOSFirewallAddrGrp} {a : String}
    (ha : a ∈ g'.member) :
    ∀ (vs : List FortiOSFirewallAddrGrp) (st : FirewallState α),
      (∀ g ∈ vs, g.name ≠ g'.name) → g' ∈ st.groups →
      a ∉ (processGroups nameOf fg st vs).2.2.1 := by
  intro vs
  induction vs with
  | nil => intro st _ _; simp [processGroups]
  | cons g rest ih =>
    intro st hname hg
    have hgn : g.name ≠ g'.name := hname g (List.mem_cons_self _ _)
    have hrest : ∀ h ∈ rest, h.name ≠ g'.name :=
      fun h hh => hname h (List.mem_cons_of_mem _ hh)
    rw [processGroups]
    split
    · exact ih st hrest hg
    · rename_i ex hfound
      dsimp only
      split
      · exact ih st hrest hg
      · rename_i hchanged
        have hgmap : g' ∈ st.groups.map
            (fun fg2 => if fg2.name == g.name then g else fg2) := by
          refine List.mem_map.mpr ⟨g', hg, ?_⟩
          rw [if_neg]
          simp only [beq_iff_eq]
          exact fun hc => hgn hc.symm
        intro hmem
        rcases List.mem_append.mp hmem with hmem | hmem
        · exact processRemoved_no_delete ha _ _ hgmap hmem
        · refine ih _ hrest ?_ hmem
          rw [processRemoved_groups]
          exact hgmap

/-- C1: during a reconciliation pass, a removed member that is still
referenced by another group on the firewall — one no desired group is
named after, so it keeps its membership throughout the pass — is never
deleted, for both `deployIPv4` and `deployIPv6`: the modelled liveness
check scans all current groups' memberships, and the delete branch runs
only when it reports the address unreferenced. -/
theorem safe_delete_skips_referenced_addresses :
    (∀ (dg : JsRecord FortiOSFirewallAddrGrp) (da : JsRecord FortiOSFirewallAddress)
        (fw : FirewallState FortiOSFirewallAddress)
        (g' : FortiOSFirewallAddrGrp) (a : String),
      g' ∈ fw.groups → a ∈ g'.member → (∀ p ∈ dg, p.2.name ≠ g'.name) →
      a ∉ (deployIPv4 dg da fw).1.deletedAddresses) ∧
    (∀ (dg : JsRecord FortiOSFirewallAddrGrp) (da : JsRecord FortiOSFirewallAddress6)
        (fw : FirewallState FortiOSFirewallAddress6)
        (g' : FortiOSFirewallAddrGrp) (a : String),
      g' ∈ fw.groups → a ∈ g'.member → (∀ p ∈ dg, p.2.name ≠ g'.name) →
      a ∉ (deployIPv6 dg da fw).1.deletedAddresses) := by
  constructor <;>
  · intro dg da fw g' a hg ha hname
    have hvals : ∀ g ∈ jsValues dg, g.name ≠ g'.name := by
      intro g hgv
      rcases List.mem_map.mp hgv with ⟨p, hp, hpe⟩
      exact hpe ▸ hname p hp
    exact processGroups_no_delete ha (jsValues dg) _ hvals
      (List.mem_append.mpr (Or.inl hg))

/-- C1 witness: with `keep` still holding `a` on the firewall, removing
`a` from group `g` does not delete it, in either namespace. -/
theorem safe_delete_skips_referenced_addresses_witness :
    "a" ∉ (deployIPv4 safeDeleteDesired [] safeDeleteFirewall).1.deletedAddresses ∧
    "a" ∉ (deployIPv6 safeDeleteDesired [] safeDeleteFirewall6).1.deletedAddresses :=
  ⟨safe_delete_skips_referenced_addresses.1 safeDeleteDesired [] safeDeleteFirewall
      keepGroup "a" (by decide) (by decide) (by decide),
    safe_delete_skips_referenced_addresses.2 safeDeleteDesired [] safeDeleteFirewall6
      keepGroup "a" (by decide) (by decide) (by decide)⟩

/-- C2 counterexample: with the address `a` moving from group `g` to
group `g2`, the first pass removes `a` from `g`, finds it referenced by
no current group (the scan runs before `g2` has been updated) and deletes
it, then re-adds it to `g2`; the second pass over the unchanged desired
state and the untouched firewall must re-create `a`, so its plan is not
empty. -/
theorem second_pass_not_empty :
    (deployIPv4 moveDesiredGroups moveDesiredAddresses
      (deployIPv4 moveDesiredGroups moveDesiredAddresses moveFirewall).2).1.createdAddresses
      = ["a"] ∧
    (deployIPv4 moveDesiredGroups moveDesiredAddresses
      (deployIPv4 moveDesiredGroups moveDesiredAddresses moveFirewall).2).1
      ≠ DeployPlan.empty := by
  decide

/-- C2 amended: a second identical pass issues no group creations, no
membership updates, no deletions and no skips, and is entirely empty
provided the desired group names are unique and the first pass deleted no
desired address (an address moving between groups can be deleted and
re-created), for both `deployIPv4` and `deployIPv6`. -/
theorem second_pass_empty_amended :
    (∀ (dg : JsRecord FortiOSFirewallAddrGrp) (da : JsRecord FortiOSFirewallAddress)
        (fw : FirewallState FortiOSFirewallAddress),
      ((jsValues dg).map (fun g => g.name)).Nodup →
      (∀ n ∈ (deployIPv4 dg da fw).1.deletedAddresses,
        n ∉ (jsValues da).map (fun a => a.name)) →
      (deployIPv4 dg da (deployIPv4 dg da fw).2).1 = DeployPlan.empty) ∧
    (∀ (dg : JsRecord FortiOSFirewallAddrGrp) (da : JsRecord FortiOSFirewallAddress6)
        (fw : FirewallState FortiOSFirewallAddress6),
      ((jsValues dg).map (fun g => g.name)).Nodup →
      (∀ n ∈ (deployIPv6 dg da fw).1.deletedAddresses,
        n ∉ (jsValues da).map (fun a => a.name)) →
      (deployIPv6 dg da (deployIPv6 dg da fw).2).1 = DeployPlan.empty) :=
  ⟨fun dg da fw h1 h2 =>
      deploy_idempotent (fun a : FortiOSFirewallAddress => a.name) dg da fw h1 h2,
    fun dg da fw h1 h2 =>
      deploy_idempotent (fun a : FortiOSFirewallAddress6 => a.name) dg da fw h1 h2⟩

/-- C2 witness: a first pass that creates an address and updates a group
membership, after which the second pass is empty, in both namespaces. -/
theorem second_pass_empty_witness :
    (deployIPv4 idemGroups idemAddresses
      (deployIPv4 idemGroups idemAddresses idemFirewall).2).1 = DeployPlan.empty ∧
    (deployIPv6 idemGroups idemAddresses6
      (deployIPv6 idemGroups idemAddresses6 idemFirewall6).2).1 = DeployPlan.empty :=
  ⟨second_pass_empty_amended.1 idemGroups idemAddresses idemFirewall
      (by decide) (by decide),
    second_pass_empty_amended.2 idemGroups idemAddresses6 idemFirewall6
      (by decide) (by decide)⟩

/-- C7: merging fragment A then fragment B into a fresh accumulator with
`mergeGroupObjects` yields, for every group name, the same set of member
names as merging B then A — membership is the deduplicated union. -/
theorem group_merge_member_set_commutes (A B : JsRecord FortiOSFirewallAddrGrp)
    (k n : String) :
    (n ∈ groupMemberNames (mergeGroupObjects (mergeGroupObjects [] A) B) k ↔
     n ∈ groupMemberNames (mergeGroupObjects (mergeGroupObjects [] B) A) k) := by
  rw [mem_groupMemberNames_merge, mem_groupMemberNames_merge,
    mem_groupMemberNames_merge, mem_groupMemberNames_merge]
  have hempty : groupMemberNames ([] : JsRecord FortiOSFirewallAddrGrp) k = [] := rfl
  rw [hempty]
  simp only [List.not_mem_nil, false_or]
  exact Or.comm

end SSI
